import Mathlib

/-!
Verification of the inline-kanban text-processing core.

This file is a shallow embedding, in Lean 4, of the text-processing core of the
inline-kanban plugin: `src/kanban-core.ts` (grammar primitives, parser,
resolver), the merge/serialize layer and the card/column mutation operations of
`src/main.ts`, and the drag-payload validator of `src/drag-payload.ts`.

Modelling conventions:
* A JavaScript string is modelled as `Str := List Char` (a list of Unicode
  scalar values).  JavaScript strings are UTF-16 sequences; lone surrogates are
  not representable here, which affects none of the properties below.
* The JavaScript regular expressions of the source are hand-compiled to
  executable functions on `Str`.  Each function carries a comment naming the
  regex it implements; the `.` metacharacter (which matches everything except
  the line terminators LF, CR, U+2028, U+2029) and backtracking behaviour are
  modelled exactly, as derived in the comments.
* The JS `trim` and the regex class `\s` use the JS whitespace set (`isJsWS`
  below).  The JS `toLowerCase` is modelled on the ASCII range, the only range
  exercised by the properties below.
* Machine numbers: WIP limits are digit strings converted by `Number(...)`;
  the conversion is modelled as the exact natural number, and the finiteness
  test `Number.isFinite` as comparison with the IEEE-754 double overflow
  threshold `2^1024 - 2^970` (values at or above it round to infinity).
  The rounding of finite values above `2^53` is not modelled; every property
  below only compares limits obtained from equal digit strings, where rounding
  agrees.
-/

/-- JS strings, modelled as lists of Unicode scalar values. -/
abbrev Str := List Char

/-- Converts a Lean string literal into the `Str` model. -/
def str (s : String) : Str := s.data

/-- The JS whitespace set: what the JS `trim` removes and the regex class `\s`
matches (WhiteSpace plus LineTerminator code points). -/
def isJsWS (c : Char) : Bool :=
  c == ' ' || c == '\t' || c == '\n' || c.val == 0x0B || c.val == 0x0C ||
  c == '\r' || c.val == 0xA0 || c.val == 0x1680 ||
  (0x2000 ≤ c.val && c.val ≤ 0x200A) || c.val == 0x2028 || c.val == 0x2029 ||
  c.val == 0x202F || c.val == 0x205F || c.val == 0x3000 || c.val == 0xFEFF

/-- The regex metacharacter `.` matches any character except the line
terminators LF, CR, U+2028, U+2029. -/
def isDotChar (c : Char) : Bool :=
  !(c == '\n' || c == '\r' || c.val == 0x2028 || c.val == 0x2029)

/-- ASCII decimal digit, the regex class `\d`. -/
def isDigitChar (c : Char) : Bool := '0' ≤ c && c ≤ '9'

/-- The regex class `[0-9a-fA-F]`. -/
def isHexChar (c : Char) : Bool :=
  isDigitChar c || ('a' ≤ c && c ≤ 'f') || ('A' ≤ c && c ≤ 'F')

/-- Lower-casing of one character (the JS `toLowerCase`, ASCII range). -/
def jsToLower (c : Char) : Char :=
  if 'A' ≤ c ∧ c ≤ 'Z' then Char.ofNat (c.toNat + 32) else c

/-- Lower-casing of a whole string. -/
def lowerL (s : Str) : Str := s.map jsToLower

/-- Drops the longest suffix whose characters satisfy `p`. -/
def dropRightWhileL (p : Char → Bool) (s : Str) : Str :=
  ((s.reverse).dropWhile p).reverse

/-- Trimming of both ends (the JS `trim`). -/
def trimL (s : Str) : Str := dropRightWhileL isJsWS (s.dropWhile isJsWS)

/-- JS `||` on strings: the left operand unless it is empty (falsy). -/
def strOr (a b : Str) : Str := if a = [] then b else a

/-- Splitting on the regex `\r?\n`: splits on LF, also consuming a CR directly
before it.  A lone CR does not split. -/
def splitLinesJS : Str → List Str
  | [] => [[]]
  | '\r' :: '\n' :: rest => [] :: splitLinesJS rest
  | '\n' :: rest => [] :: splitLinesJS rest
  | c :: rest =>
    match splitLinesJS rest with
    | [] => [[c]]
    | l :: ls => (c :: l) :: ls

/-- Splits `s = a ++ c :: b` at the last occurrence of `c`, if any. -/
def splitLastChar (s : Str) (c : Char) : Option (Str × Str) :=
  match s with
  | [] => none
  | x :: rest =>
    match splitLastChar rest c with
    | some (a, b) => some (x :: a, b)
    | none => if x = c then some ([], rest) else none

/-- The sentinel column name (`DEFAULT_COLUMN` in `src/kanban-core.ts`). -/
def DEFAULT_COLUMN : Str := str "Uncategorized"

/-- Transient column-declaration record (`ColumnDefinition` in
`src/kanban-core.ts`). -/
structure ColumnDefinition where
  rawName : Str
  baseName : Str
  wipLimit : Option Nat
  color : Option Str
deriving DecidableEq, Repr

/-- Parse-time item record (`KanbanItem` in `src/kanban-core.ts`). -/
structure KanbanItem where
  status : Str
  text : Str
deriving DecidableEq, Repr

/-- Column record (`KanbanColumn` in `src/kanban-core.ts`). -/
structure KanbanColumn where
  name : Str
  rawName : Str
  statusName : Str
  wipLimit : Option Nat
  color : Option Str
  items : List Str
deriving DecidableEq, Repr

/-- Board record (`KanbanBoard` in `src/kanban-core.ts`). -/
structure KanbanBoard where
  columns : List KanbanColumn
deriving DecidableEq, Repr

/-- Numeric value of a decimal digit string (leading zeros allowed). -/
def digitsToNat (ds : Str) : Nat :=
  ds.foldl (fun n c => n * 10 + (c.toNat - 48)) 0

/-- Finiteness test of `Number(ds)` for a nonempty digit string `ds`: the
exact value must lie strictly below the IEEE-754 double overflow threshold. -/
def jsNumberFiniteDigits (ds : Str) : Bool :=
  digitsToNat ds < 2 ^ 1024 - 2 ^ 970

/-- Hex-color validation (`normalizeHexColor` in `src/kanban-core.ts`).  The
shape test is the regex `^#[0-9a-f]{3}([0-9a-f]{3})?([0-9a-f]{2})?$`, which
accepts hex runs of length 3 (first group), 6 (3 + middle 3), 8 (3 + 3 + final
2) — and also 5 (3 + final 2, with the middle optional group absent). -/
def normalizeHexColor (value : Str) : Option Str :=
  if value = [] then none
  else
    let normalized := lowerL (trimL value)
    match normalized with
    | '#' :: h =>
      if h.all (fun c => isDigitChar c || ('a' ≤ c && c ≤ 'f')) &&
          (h.length == 3 || h.length == 5 || h.length == 6 || h.length == 8)
      then some normalized else none
    | _ => none

/-- Evaluation of the regex `(.*?)(\s*\{(#[0-9a-fA-F]\x7b3,8\x7d)\})\s*$`
(anchored both ends) on a trimmed string `w`, returning
`(group1 minus its whitespace run, color group)` on success.  Derivation:
since `w` is trimmed, the trailing `\s*` is empty, so the final character must
be the closing brace.  The brace opening the matched token must be the last
opening brace of `w` (the token body is hex digits and cannot contain a
brace).  The lazy prefix `(.*?)` is everything before that brace minus its
maximal whitespace suffix (absorbed by the following greedy `\s*`), and must
contain no line terminator, because the metacharacter `.` matches none. -/
def execColorSuffix (w : Str) : Option (Str × Str) :=
  match splitLastChar w '{' with
  | none => none
  | some (a, b) =>
    match b with
    | '#' :: rest =>
      if rest.getLast? = some '}' then
        let h := rest.dropLast
        let g1 := dropRightWhileL isJsWS a
        if 3 ≤ h.length ∧ h.length ≤ 8 ∧ h.all isHexChar ∧ g1.all isDotChar
        then some (g1, '#' :: h) else none
      else none
    | _ => none

/-- Evaluation of the regex `(.*?)(\s*\((\d+)\))\s*$` (anchored both ends) on
a trimmed string `w`, returning `(group1 minus its whitespace run, digits)` on
success.  Derivation as in `execColorSuffix`: the opening parenthesis of the
matched token is the last one of `w` (digits cannot contain a parenthesis),
the final character must be the closing parenthesis, the content between must
be one or more digits, and the lazy prefix must contain no line terminator. -/
def execWipSuffix (w : Str) : Option (Str × Str) :=
  match splitLastChar w '(' with
  | none => none
  | some (a, b) =>
    if b.getLast? = some ')' then
      let ds := b.dropLast
      let g1 := dropRightWhileL isJsWS a
      if ds ≠ [] ∧ ds.all isDigitChar ∧ g1.all isDotChar
      then some (g1, ds) else none
    else none

/-- Column-declaration parsing (`parseColumnDefinition` in
`src/kanban-core.ts`). -/
def parseColumnDefinition (rawName : Str) : ColumnDefinition :=
  let trimmed := trimL rawName
  match execColorSuffix trimmed with
  | some (g1, g2) =>
    let working := trimL g1
    let color := normalizeHexColor g2
    match execWipSuffix working with
    | none =>
      { rawName := trimmed, baseName := strOr working trimmed,
        wipLimit := none, color := color }
    | some (h1, ds) =>
      if jsNumberFiniteDigits ds then
        { rawName := trimmed,
          baseName := strOr (trimL h1) (strOr working trimmed),
          wipLimit := some (digitsToNat ds), color := color }
      else
        { rawName := trimmed, baseName := strOr working trimmed,
          wipLimit := none, color := color }
  | none =>
    let working := trimmed
    match execWipSuffix working with
    | none =>
      { rawName := trimmed, baseName := strOr working trimmed,
        wipLimit := none, color := none }
    | some (h1, ds) =>
      if jsNumberFiniteDigits ds then
        { rawName := trimmed,
          baseName := strOr (trimL h1) (strOr working trimmed),
          wipLimit := some (digitsToNat ds), color := none }
      else
        { rawName := trimmed, baseName := strOr working trimmed,
          wipLimit := none, color := none }

/-- Key normalization (`normalizeKey` in `src/kanban-core.ts`). -/
def normalizeKey (value : Str) : Str := lowerL (trimL value)

/-- Column-key normalization (`normalizeColumnKey` in `src/kanban-core.ts`). -/
def normalizeColumnKey (value : Str) : Str :=
  normalizeKey (strOr (parseColumnDefinition value).baseName value)

/-- Column construction (`createColumnFromDefinition` in
`src/kanban-core.ts`). -/
def createColumnFromDefinition (d : ColumnDefinition) : KanbanColumn :=
  let name := strOr d.baseName d.rawName
  { name := name, rawName := d.rawName, statusName := name,
    wipLimit := d.wipLimit, color := d.color, items := [] }

/-- Section state of the line scanner: `"columns" | "items" | null`. -/
inductive SectionKind where
  | columns
  | items
deriving DecidableEq, Repr

/-- Accumulator of the line scan of `parseKanbanSource`: the active section,
the collected column definitions and the collected items, in encounter
order. -/
structure ParseState where
  sec : Option SectionKind
  defs : List ColumnDefinition
  items : List KanbanItem
deriving DecidableEq, Repr

/-- Evaluation of the regex `columns:\s*(.+)$` (case-insensitive, anchored
both ends) on a trimmed line, returning the capture.  The capture `(.+)` must
be nonempty and may not contain a line terminator, so the match succeeds
exactly when, after the case-insensitive literal and a whitespace run, a
nonempty terminator-free remainder follows. -/
def matchInlineColumns (l : Str) : Option Str :=
  if lowerL (l.take 8) = str "columns:" then
    let t := (l.drop 8).dropWhile isJsWS
    if t ≠ [] ∧ t.all isDotChar then some t else none
  else none

/-- Test of the regex `columns:\s*$` (case-insensitive) on a trimmed line. -/
def isColumnsHeader (l : Str) : Bool := lowerL l == str "columns:"

/-- Test of the regex `items:\s*$` (case-insensitive) on a trimmed line. -/
def isItemsHeader (l : Str) : Bool := lowerL l == str "items:"

/-- Evaluation of the regex `[-\*]\s+(.*)$` (anchored both ends) on a trimmed
line, returning the capture: a bullet, at least one whitespace, then a
terminator-free remainder (the greedy `\s+` leaves the capture starting at the
first non-whitespace character, or empty). -/
def matchListEntry (l : Str) : Option Str :=
  match l with
  | c :: rest =>
    if c == '-' || c == '*' then
      let w := rest.takeWhile isJsWS
      let t := rest.dropWhile isJsWS
      if w ≠ [] ∧ t.all isDotChar then some t else none
    else none
  | [] => none

/-- Splitting of an inline `columns:` payload on commas, trimming each piece
and dropping empty ones (`splitCommaList` in `src/kanban-core.ts`). -/
def splitOnComma : Str → List Str
  | [] => [[]]
  | ',' :: rest => [] :: splitOnComma rest
  | c :: rest =>
    match splitOnComma rest with
    | [] => [[c]]
    | l :: ls => (c :: l) :: ls

/-- Trim-and-filter phase of `splitCommaList`. -/
def splitCommaList (raw : Str) : List Str :=
  ((splitOnComma raw).map trimL).filter (· ≠ [])

/-- Evaluation of the bracket-notation regex `\[(.+?)\]\s*(.*)$` (anchored
both ends) after the opening bracket, returning `(status group, second
capture)`.  The scan tries each closing bracket from the left (the lazy
`(.+?)` backtracks rightwards); a candidate is accepted when the status group
is nonempty and the remainder after the whitespace run is terminator-free.  A
line terminator inside the status group stops the search, because `.` cannot
match it. -/
def bracketScan (s : Str) (acc : Str) : Option (Str × Str) :=
  match s with
  | [] => none
  | ']' :: t =>
    if acc ≠ [] ∧ (t.dropWhile isJsWS).all isDotChar then
      some (acc.reverse, t.dropWhile isJsWS)
    else bracketScan t (']' :: acc)
  | c :: t => if isDotChar c then bracketScan t (c :: acc) else none

/-- Match of the bracket notation on a whole (trimmed) entry. -/
def bracketMatch (s : Str) : Option (Str × Str) :=
  match s with
  | '[' :: rest => bracketScan rest []
  | _ => none

/-- Evaluation of the colon-notation regex `([^:]+):\s*(.*)$` (anchored both
ends), returning `(status group, second capture)`.  The greedy `[^:]+` runs to
the first colon and cannot backtrack usefully, so the match succeeds exactly
when a colon exists, the part before the first colon is nonempty, and the
remainder after the whitespace run is terminator-free. -/
def colonMatch (s : Str) : Option (Str × Str) :=
  let p := s.takeWhile (fun c => !(c == ':'))
  match s.dropWhile (fun c => !(c == ':')) with
  | ':' :: t =>
    if p ≠ [] ∧ (t.dropWhile isJsWS).all isDotChar then
      some (p, t.dropWhile isJsWS)
    else none
  | _ => none

/-- Item-entry parsing (`parseItemEntry` in `src/kanban-core.ts`). -/
def parseItemEntry (raw : Str) : KanbanItem :=
  let text0 := trimL raw
  let sp :=
    match bracketMatch text0 with
    | some (s, t) => (trimL s, trimL t)
    | none =>
      match colonMatch text0 with
      | some (s, t) => (trimL s, trimL t)
      | none => ([], text0)
  let status := strOr sp.1 DEFAULT_COLUMN
  let text := strOr sp.2 (trimL raw)
  { status := status, text := text }

/-- Appends a continuation line to the text of the last recorded item. -/
def appendToLastItem (items : List KanbanItem) (cont : Str) : List KanbanItem :=
  match items with
  | [] => []
  | [it] => [{ it with text := it.text ++ '\n' :: cont }]
  | it :: rest => it :: appendToLastItem rest cont

/-- Test of the regex `^\s+` : the string starts with a whitespace. -/
def startsWithJsWS (s : Str) : Bool :=
  match s with
  | c :: _ => isJsWS c
  | [] => false

/-- Continuation check, the final branch of the line scan: in the items
section, after at least one item, a non-blank line with leading whitespace is
appended to the last item's text. -/
def contStep (st : ParseState) (rawLine line : Str) : ParseState :=
  if st.sec = some SectionKind.items ∧ st.items ≠ [] ∧
      startsWithJsWS rawLine then
    let continuation := trimL line
    if continuation ≠ [] then
      { st with items := appendToLastItem st.items continuation }
    else st
  else st

/-- One line of the scan loop of `parseKanbanSource`. -/
def stepLine (st : ParseState) (rawLine : Str) : ParseState :=
  let line := trimL rawLine
  if line = [] then st
  else
    match matchInlineColumns line with
    | some cap =>
      let newDefs := (splitCommaList cap).foldl
        (fun acc e =>
          let d := parseColumnDefinition e
          if d.rawName ≠ [] then acc ++ [d] else acc)
        st.defs
      { st with sec := some SectionKind.columns, defs := newDefs }
    | none =>
      if isColumnsHeader line then { st with sec := some SectionKind.columns }
      else if isItemsHeader line then { st with sec := some SectionKind.items }
      else
        match matchListEntry line with
        | some cap =>
          let entry := trimL cap
          match st.sec with
          | some SectionKind.columns =>
            if entry ≠ [] then
              { st with defs := st.defs ++ [parseColumnDefinition entry] }
            else st
          | some SectionKind.items =>
            { st with items := st.items ++ [parseItemEntry entry] }
          | none => contStep st rawLine line
        | none => contStep st rawLine line

/-- Resolver state: the ordered association `columnOrder`/`columnMap` of
`parseKanbanSource`, modelled as one insertion-ordered association list (a key
is pushed to the order exactly when it is inserted into the map, so the pair
of structures is equivalent to this list). -/
abbrev RState := List (Str × KanbanColumn)

/-- Lookup in the resolver state (`columnMap[key]`). -/
def assocFind (r : RState) (key : Str) : Option KanbanColumn :=
  (r.find? (fun p => p.1 == key)).map (·.2)

/-- Pointwise update of the column stored under `key` (mutation of the object
held in `columnMap`); keys are unique, so at most one entry changes. -/
def assocUpdate (r : RState) (key : Str) (f : KanbanColumn → KanbanColumn) :
    RState :=
  r.map (fun p => if p.1 == key then (p.1, f p.2) else p)

/-- Fill-in step of `ensureColumn` on an existing column: empty `rawName` and
`name` are replaced, a missing `wipLimit` is supplied, and a missing (or
empty, i.e. falsy) `color` is supplied by a present nonempty one. -/
def fillDefinition (d : ColumnDefinition) (c0 : KanbanColumn) : KanbanColumn :=
  let c1 := if c0.rawName = [] then { c0 with rawName := d.rawName } else c0
  let c2 := if c1.name = [] then { c1 with name := d.baseName } else c1
  let c3 :=
    if c2.wipLimit = none ∧ d.wipLimit ≠ none then
      { c2 with wipLimit := d.wipLimit }
    else c2
  if (c3.color = none ∨ c3.color = some []) ∧
      (d.color ≠ none ∧ d.color ≠ some []) then
    { c3 with color := d.color }
  else c3

/-- Get-or-create of `ensureColumn` in `src/kanban-core.ts`. -/
def ensureColumn (r : RState) (d : ColumnDefinition) : RState :=
  let key := normalizeColumnKey d.rawName
  match assocFind r key with
  | some _ => assocUpdate r key (fillDefinition d)
  | none => r ++ [(key, createColumnFromDefinition d)]

/-- Status-usage counters, keyed like the columns:
`(rawMatches, baseMatches)`. -/
abbrev UsageMap := List (Str × (Nat × Nat))

/-- Reads the counters for a key, defaulting to `(0, 0)`. -/
def usageGet (u : UsageMap) (key : Str) : Nat × Nat :=
  ((u.find? (fun p => p.1 == key)).map (·.2)).getD (0, 0)

/-- Stores the counters for a key (replace if present, else append). -/
def usageSet (u : UsageMap) (key : Str) (v : Nat × Nat) : UsageMap :=
  if (u.find? (fun p => p.1 == key)).isSome then
    u.map (fun p => if p.1 == key then (p.1, v) else p)
  else u ++ [(key, v)]

/-- One item of the item-distribution loop of `parseKanbanSource`: resolve the
status to a column (creating it if missing), push the text, and update the
status-usage counters against the column's `rawName` and `name`. -/
def itemStep (acc : RState × UsageMap) (it : KanbanItem) : RState × UsageMap :=
  let r := acc.1
  let u := acc.2
  let statusName := strOr it.status DEFAULT_COLUMN
  let key := normalizeColumnKey statusName
  let r1 :=
    match assocFind r key with
    | some _ => r
    | none => ensureColumn r (parseColumnDefinition statusName)
  let r2 := assocUpdate r1 key (fun c => { c with items := c.items ++ [it.text] })
  let u1 :=
    match assocFind r2 key with
    | none => u
    | some col =>
      let m := usageGet u key
      let ts := trimL statusName
      let rawM :=
        if ts ≠ [] ∧ normalizeKey ts = normalizeKey col.rawName then m.1 + 1
        else m.1
      let baseM :=
        if ts ≠ [] ∧ normalizeKey ts = normalizeKey col.name then m.2 + 1
        else m.2
      usageSet u key (rawM, baseM)
  (r2, u1)

/-- Final `statusName` assignment of `parseKanbanSource`: `rawName` when the
raw-name matches are positive and the base-name matches are zero, else
`name`. -/
def assignStatusName (u : UsageMap) (p : Str × KanbanColumn) : KanbanColumn :=
  let c := p.2
  match (u.find? (fun q => q.1 == p.1)).map (·.2) with
  | some m =>
    if m.1 > 0 ∧ m.2 = 0 then { c with statusName := c.rawName }
    else { c with statusName := c.name }
  | none => { c with statusName := c.name }

/-- Resolver of `parseKanbanSource`: builds the columns from the collected
definitions and items.  Phase 1 processes explicit definitions; phase 2, only
when no column exists, infers columns from item statuses; phase 3, only when
still no column exists, creates the sentinel column; phase 4 distributes the
items and counts status usage; the final pass assigns each `statusName`. -/
def resolveBoard (defs : List ColumnDefinition) (items : List KanbanItem) :
    KanbanBoard :=
  let r0 : RState := defs.foldl ensureColumn []
  let r1 :=
    if r0 = [] then
      items.foldl
        (fun r it =>
          if it.status ≠ [] then ensureColumn r (parseColumnDefinition it.status)
          else r)
        r0
    else r0
  let r2 :=
    if r1 = [] then ensureColumn r1 (parseColumnDefinition DEFAULT_COLUMN)
    else r1
  let ru := items.foldl itemStep (r2, ([] : UsageMap))
  { columns := ru.1.map (assignStatusName ru.2) }

/-- Whole-text parsing (`parseKanbanSource` in `src/kanban-core.ts`): split
into lines, scan each line, then resolve. -/
def parseKanbanSource (source : Str) : KanbanBoard :=
  let st := (splitLinesJS source).foldl stepLine
    { sec := none, defs := [], items := [] }
  resolveBoard st.defs st.items

/-- Item-notation style used by the merger (`ItemStyle` in `src/main.ts`). -/
inductive ItemStyle where
  | bracket
  | colon
deriving DecidableEq, Repr

/-- Entry formatting (`formatItemLines` in `src/main.ts`): trim the text,
split into lines, drop blank ones, and render the first line in the requested
notation with the given status. -/
def formatItemLines (status text : Str) (style : ItemStyle) : List Str :=
  let trimmed := trimL text
  if trimmed = [] then []
  else
    let lines := ((splitLinesJS trimmed).map trimL).filter (· ≠ [])
    match lines with
    | [] => []
    | l0 :: rest =>
      let first :=
        match style with
        | ItemStyle.colon => status ++ str ": " ++ l0
        | ItemStyle.bracket => '[' :: (status ++ ']' :: ' ' :: l0)
      first :: rest

/-- List entries handed to the merger: a plain string (column entries) or a
pre-split list of lines (item entries), mirroring `string | string[]`. -/
inductive MergeEntry where
  | s (v : Str)
  | ls (v : List Str)
deriving DecidableEq, Repr

/-- List-entry rendering (`formatListEntryLines` in `src/main.ts`): first line
gets the bullet prefix, later lines a same-width space indent. -/
def formatListEntryLines (entry : MergeEntry) (pfx : Str) : List Str :=
  let rawLines :=
    match entry with
    | MergeEntry.s v => splitLinesJS v
    | MergeEntry.ls v => v
  let lines := (rawLines.map trimL).filter (· ≠ [])
  match lines with
  | [] => []
  | l0 :: rest =>
    (pfx ++ l0) :: rest.map (fun l => List.replicate pfx.length ' ' ++ l)

/-- Joins lines with LF (the JS `lines.join("\n")`). -/
def joinLines (ls : List Str) : Str := List.intercalate ['\n'] ls

/-- Canonical whole-block regeneration (`serializeKanbanBoard` in
`src/main.ts`): a `columns:` header, one bullet per column using `rawName`, an
`items:` header, and bracket-notation bullets for every item, grouped by
column. -/
def serializeKanbanBoard (board : KanbanBoard) : Str :=
  let pfx := str "  - "
  let colLines := board.columns.map (fun c => pfx ++ c.rawName)
  let itemLines := board.columns.flatMap (fun c =>
    c.items.flatMap (fun t =>
      let entryLines := formatItemLines c.statusName t ItemStyle.bracket
      if entryLines = [] then []
      else formatListEntryLines (MergeEntry.ls entryLines) pfx))
  joinLines (str "columns:" :: colLines ++ str "items:" :: itemLines)

/-- Header search (`findHeaderIndex` in `src/main.ts`): index of the first
line whose trimmed form passes the given header test. -/
def findHeaderIdx (lines : List Str) (p : Str → Bool) : Option Nat :=
  lines.findIdx? (fun l => p (trimL l))

/-- Test of the list-line regex `^\s*[-\*]\s+` (used by the section
splicer). -/
def isListLine (l : Str) : Bool :=
  match l.dropWhile isJsWS with
  | c :: r => (c == '-' || c == '*') && startsWithJsWS r
  | [] => false

/-- Index of the last list line of a section (the running `lastListLineIndex`
of the scan loop in `buildSectionLines`). -/
def lastListLineIdx (lines : List Str) : Option Nat :=
  (List.range lines.length).foldl
    (fun acc i => if isListLine (lines.getD i []) then some i else acc) none

/-- Length of the run of blank or indented lines at the head of `lines` (the
trailing-region extension loop of `buildSectionLines`). -/
def trailingRun : List Str → Nat
  | [] => 0
  | l :: rest =>
    if trimL l = [] ∨ startsWithJsWS l then trailingRun rest + 1 else 0

/-- Capture of the regex `^(\s*[-\*]\s+)` : the leading whitespace, the
bullet, and the following whitespace run. -/
def listPfxOf (l : Str) : Option Str :=
  let w := l.takeWhile isJsWS
  match l.dropWhile isJsWS with
  | c :: r =>
    if c == '-' || c == '*' then
      let w2 := r.takeWhile isJsWS
      if w2 ≠ [] then some (w ++ c :: w2) else none
    else none
  | [] => none

/-- Bullet-prefix selection (`getListPrefix` in `src/main.ts`, renamed since
the original name is unavailable here): the prefix of the first list line, or
the header's indent plus two spaces and a dash. -/
def getListPfx (sectionLines : List Str) (headerLine : Str) : Str :=
  match sectionLines.findSome? listPfxOf with
  | some p => p
  | none => headerLine.takeWhile isJsWS ++ str "  - "

/-- Section splicing (`buildSectionLines` in `src/main.ts`): replace the range
from the first list line to the last list line (extended over the directly
following blank or indented run) with the rendered entries; with no list line,
append the rendered entries after the whole section. -/
def buildSectionLines (sectionLines : List Str) (entries : List MergeEntry)
    (headerLine : Str) : List Str :=
  let pfx := getListPfx sectionLines headerLine
  let newLines := entries.flatMap (fun e => formatListEntryLines e pfx)
  match sectionLines.findIdx? isListLine with
  | none => sectionLines ++ newLines
  | some f =>
    let lastL := (lastListLineIdx sectionLines).getD f
    let lastIdx := lastL + trailingRun (sectionLines.drop (lastL + 1))
    sectionLines.take f ++ newLines ++ sectionLines.drop (lastIdx + 1)

/-- Evaluation of the regex `^\s*[-\*]\s+(.*)$` on a raw line, returning the
trimmed capture (the per-line matcher of `detectItemStyle`); the capture must
be terminator-free. -/
def detectLineContent (l : Str) : Option Str :=
  match l.dropWhile isJsWS with
  | c :: r =>
    if c == '-' || c == '*' then
      let w2 := r.takeWhile isJsWS
      let t := r.dropWhile isJsWS
      if w2 ≠ [] ∧ t.all isDotChar then some (trimL t) else none
    else none
  | [] => none

/-- Test of the regex `^\[[^\]]+\]\s+` : bracket-notation shape. -/
def bracketish (content : Str) : Bool :=
  match content with
  | '[' :: rest =>
    let s := rest.takeWhile (fun c => !(c == ']'))
    match rest.dropWhile (fun c => !(c == ']')) with
    | ']' :: t => s ≠ [] && startsWithJsWS t
    | _ => false
  | _ => false

/-- Test of the regex `^[^:]+:\s+` : colon-notation shape. -/
def colonish (content : Str) : Bool :=
  let p := content.takeWhile (fun c => !(c == ':'))
  match content.dropWhile (fun c => !(c == ':')) with
  | ':' :: t => p ≠ [] && startsWithJsWS t
  | _ => false

/-- Style exhibited by one list line's content, if any. -/
def exhibitsStyle (content : Str) : Option ItemStyle :=
  if bracketish content then some ItemStyle.bracket
  else if colonish content then some ItemStyle.colon
  else none

/-- Notation detection (`detectItemStyle` in `src/main.ts`): the style of the
first list line exhibiting one, defaulting to bracket. -/
def detectItemStyle (sectionLines : List Str) : ItemStyle :=
  (sectionLines.findSome? (fun l => (detectLineContent l).bind exhibitsStyle)).getD
    ItemStyle.bracket

/-- Structural merge (`mergeKanbanBlockLines` in `src/main.ts`): locate the
two headers; fall back to full regeneration when one is missing or misordered;
otherwise splice each section's list range independently and reassemble. -/
def mergeKanbanBlockLines (blockLines : List Str) (board : KanbanBoard) :
    List Str :=
  match findHeaderIdx blockLines isColumnsHeader,
      findHeaderIdx blockLines isItemsHeader with
  | some ci, some ii =>
    if ci > ii then splitLinesJS (serializeKanbanBoard board)
    else
      let beforeColumns := blockLines.take (ci + 1)
      let columnsSectionLines := (blockLines.drop (ci + 1)).take (ii - (ci + 1))
      let itemsHeaderLine := blockLines.getD ii []
      let itemsSectionLines := blockLines.drop (ii + 1)
      let columnEntries := board.columns.map (fun c => MergeEntry.s c.rawName)
      let columnsSection := buildSectionLines columnsSectionLines columnEntries
        (blockLines.getD ci [])
      let style := detectItemStyle itemsSectionLines
      let itemEntries := board.columns.flatMap (fun c =>
        c.items.flatMap (fun t =>
          let ls := formatItemLines c.statusName t style
          if ls = [] then [] else [MergeEntry.ls ls]))
      let itemsSection := buildSectionLines itemsSectionLines itemEntries
        itemsHeaderLine
      beforeColumns ++ columnsSection ++ [itemsHeaderLine] ++ itemsSection
  | _, _ => splitLinesJS (serializeKanbanBoard board)

/-- JS array indexing `arr[i]` with a (possibly negative or too large)
integer index: out-of-range access yields `undefined`. -/
def jsIndex {α : Type} (l : List α) (i : Int) : Option α :=
  if 0 ≤ i ∧ i < (l.length : Int) then l.get? i.toNat else none

/-- JS `arr.splice(start, 1)`: a negative start counts from the end (clamped
to 0), a too-large start is clamped to the length; one element is removed when
the effective start is in range.  Returns the removed element (if any) and the
remaining list. -/
def spliceRemoveOne {α : Type} (l : List α) (start : Int) : Option α × List α :=
  let len : Int := l.length
  let s := if start < 0 then max (len + start) 0 else min start len
  let n := s.toNat
  if n < l.length then (l.get? n, l.eraseIdx n) else (none, l)

/-- Card move (`moveCard` in `src/main.ts`), on integer indices.  The source
and target column references alias the same object when the indices coincide;
this is modelled by re-reading the target column after the removal has been
written back. -/
def moveCard (board : KanbanBoard) (fromColumnIndex fromItemIndex
    toColumnIndex toItemIndex : Int) : KanbanBoard :=
  match jsIndex board.columns fromColumnIndex,
      jsIndex board.columns toColumnIndex with
  | some sourceColumn, some _ =>
    let rem := spliceRemoveOne sourceColumn.items fromItemIndex
    match rem.1 with
    | none => board
    | some moved =>
      let cols1 := board.columns.set fromColumnIndex.toNat
        { sourceColumn with items := rem.2 }
      let targetColumn := (jsIndex cols1 toColumnIndex).getD sourceColumn
      let len : Int := targetColumn.items.length
      let i1 :=
        if fromColumnIndex = toColumnIndex ∧ fromItemIndex < toItemIndex then
          toItemIndex - 1
        else toItemIndex
      let i2 := if i1 < 0 then 0 else i1
      let i3 := if i2 > len then len else i2
      { columns := cols1.set toColumnIndex.toNat
          { targetColumn with
            items := targetColumn.items.insertIdx i3.toNat moved } }
  | _, _ => board

/-- Column move (`moveColumn` in `src/main.ts`), on integer indices.  The
falsy test on the removed column object never fires in JS (objects are
truthy), so the removal always proceeds once `fromIndex` is in range. -/
def moveColumn (board : KanbanBoard) (fromIndex toIndex : Int) : KanbanBoard :=
  let columns := board.columns
  let len : Int := columns.length
  if fromIndex < 0 ∨ fromIndex ≥ len then board
  else
    let to1 := if toIndex < 0 then 0 else toIndex
    let to2 := if to1 > len then len else to1
    match jsIndex columns fromIndex with
    | none => board
    | some moved =>
      let rest := columns.eraseIdx fromIndex.toNat
      let restLen : Int := rest.length
      let i1 := if fromIndex < to2 then to2 - 1 else to2
      let i2 := if i1 < 0 then 0 else i1
      let i3 := if i2 > restLen then restLen else i2
      { columns := rest.insertIdx i3.toNat moved }

/-- All item texts of a board, in board order. -/
def boardItems (board : KanbanBoard) : List Str :=
  (board.columns.map (fun c => c.items)).flatten

/-!
JSON model for the drag-payload validator.  `JSON.parse` is a platform
builtin; it is modelled here by an exact recursive-descent parser for the JSON
grammar (ECMA-404 with the `JSON.parse` whitespace set), with numbers carried
as exact rationals.  The IEEE-754 rounding that `JSON.parse` applies to number
literals is not modelled: the validator's integrality test is evaluated on the
exact value.  The two diverge only on literals needing more than double
precision or overflowing to infinity; all board indices are small integers.
Duplicate object keys keep the last binding, as in `JSON.parse`.  Unicode
escapes are decoded, pairing surrogate halves; a lone surrogate half (not
representable as a scalar) is replaced by U+FFFD, which cannot affect the
fields looked up here.
-/

/-- JSON values. -/
inductive JsonVal where
  | null
  | bool (b : Bool)
  | num (q : ℚ)
  | jstr (s : Str)
  | arr (vs : List JsonVal)
  | obj (kvs : List (Str × JsonVal))

/-- JSON whitespace (the only characters `JSON.parse` skips). -/
def isJsonWS (c : Char) : Bool :=
  c == ' ' || c == '\t' || c == '\n' || c == '\r'

/-- Hex digit value. -/
def hexVal (c : Char) : Nat :=
  if isDigitChar c then c.toNat - 48
  else if 'a' ≤ c ∧ c ≤ 'f' then c.toNat - 87
  else if 'A' ≤ c ∧ c ≤ 'F' then c.toNat - 55
  else 0

/-- Decoding of a `\uXXXX` escape: four hex digits. -/
def parseHex4 (s : Str) : Option (Nat × Str) :=
  match s with
  | a :: b :: c :: d :: rest =>
    if isHexChar a && isHexChar b && isHexChar c && isHexChar d then
      some (((hexVal a * 16 + hexVal b) * 16 + hexVal c) * 16 + hexVal d, rest)
    else none
  | _ => none

/-- Scalar-safe character construction: surrogate code points fall back to
U+FFFD. -/
def charOfCodePoint (n : Nat) : Char :=
  if n < 0xD800 ∨ (0xDFFF < n ∧ n < 0x110000) then Char.ofNat n
  else Char.ofNat 0xFFFD

/-- Prepends a decoded character to the result of parsing the rest of a JSON
string body. -/
def jsonStrCons (c : Char) (r : Option (Str × Str)) : Option (Str × Str) :=
  match r with
  | some (cs, rest1) => some (c :: cs, rest1)
  | none => none

/-- JSON string-body parsing, after the opening quote; returns the decoded
characters and the input after the closing quote. -/
def parseJsonStringBody (fuel : Nat) (s : Str) : Option (Str × Str) :=
  match fuel with
  | 0 => none
  | fuel + 1 =>
    match s with
    | [] => none
    | '"' :: rest => some ([], rest)
    | '\\' :: esc =>
      match esc with
      | '"' :: rest => jsonStrCons '"' (parseJsonStringBody fuel rest)
      | '\\' :: rest => jsonStrCons '\\' (parseJsonStringBody fuel rest)
      | '/' :: rest => jsonStrCons '/' (parseJsonStringBody fuel rest)
      | 'b' :: rest => jsonStrCons '\x08' (parseJsonStringBody fuel rest)
      | 'f' :: rest => jsonStrCons '\x0C' (parseJsonStringBody fuel rest)
      | 'n' :: rest => jsonStrCons '\n' (parseJsonStringBody fuel rest)
      | 'r' :: rest => jsonStrCons '\r' (parseJsonStringBody fuel rest)
      | 't' :: rest => jsonStrCons '\t' (parseJsonStringBody fuel rest)
      | 'u' :: rest =>
        match parseHex4 rest with
        | none => none
        | some (n, rest1) =>
          if 0xD800 ≤ n ∧ n ≤ 0xDBFF then
            match rest1 with
            | '\\' :: 'u' :: rest2 =>
              match parseHex4 rest2 with
              | some (m, rest3) =>
                if 0xDC00 ≤ m ∧ m ≤ 0xDFFF then
                  jsonStrCons
                    (charOfCodePoint
                      (0x10000 + (n - 0xD800) * 0x400 + (m - 0xDC00)))
                    (parseJsonStringBody fuel rest3)
                else jsonStrCons (charOfCodePoint n) (parseJsonStringBody fuel rest1)
              | none => jsonStrCons (charOfCodePoint n) (parseJsonStringBody fuel rest1)
            | _ => jsonStrCons (charOfCodePoint n) (parseJsonStringBody fuel rest1)
          else jsonStrCons (charOfCodePoint n) (parseJsonStringBody fuel rest1)
      | _ => none
    | c :: rest => if c.val < 0x20 then none else jsonStrCons c (parseJsonStringBody fuel rest)

/-- JSON number parsing: `-?(0|[1-9][0-9]*)(\.[0-9]+)?([eE][+-]?[0-9]+)?`,
evaluated exactly. -/
def parseJsonNumber (s : Str) : Option (ℚ × Str) :=
  let (neg, s1) :=
    match s with
    | '-' :: rest => (true, rest)
    | _ => (false, s)
  match s1 with
  | [] => none
  | c :: _ =>
    if !isDigitChar c then none
    else
      let intDigits := s1.takeWhile isDigitChar
      let s2 := s1.dropWhile isDigitChar
      if c = '0' ∧ intDigits.length ≠ 1 then none
      else
        let intPart : ℚ := (digitsToNat intDigits : ℚ)
        let fracStep : Option (ℚ × Str) :=
          match s2 with
          | '.' :: rest =>
            let fd := rest.takeWhile isDigitChar
            if fd = [] then none
            else
              some (intPart + (digitsToNat fd : ℚ) / ((10 : ℚ) ^ fd.length),
                rest.dropWhile isDigitChar)
          | _ => some (intPart, s2)
        match fracStep with
        | none => none
        | some (mant, s3) =>
          let expStep : Option (ℚ × Str) :=
            match s3 with
            | 'e' :: rest => parseExp mant rest
            | 'E' :: rest => parseExp mant rest
            | _ => some (mant, s3)
          match expStep with
          | none => none
          | some (v, s4) => some (if neg then -v else v, s4)
where
  /-- Applies a decimal exponent with optional sign. -/
  parseExp (mant : ℚ) (rest : Str) : Option (ℚ × Str) :=
    let (eneg, r1) :=
      match rest with
      | '+' :: r => (false, r)
      | '-' :: r => (true, r)
      | _ => (false, rest)
    let ed := r1.takeWhile isDigitChar
    if ed = [] then none
    else
      let e := digitsToNat ed
      let v := if eneg then mant / ((10 : ℚ) ^ e) else mant * ((10 : ℚ) ^ e)
      some (v, r1.dropWhile isDigitChar)

mutual

/-- JSON value parsing with fuel; the fuel passed by `jsonParse` exceeds any
possible recursion depth, so it only serves termination.  Whitespace before a
token is skipped; literals, strings, numbers, arrays and objects follow the
ECMA-404 grammar. -/
def parseJsonValue (fuel : Nat) (s : Str) : Option (JsonVal × Str) :=
  match fuel with
  | 0 => none
  | f + 1 =>
    match s.dropWhile isJsonWS with
    | 'n' :: 'u' :: 'l' :: 'l' :: rest => some (JsonVal.null, rest)
    | 't' :: 'r' :: 'u' :: 'e' :: rest => some (JsonVal.bool true, rest)
    | 'f' :: 'a' :: 'l' :: 's' :: 'e' :: rest => some (JsonVal.bool false, rest)
    | '"' :: rest =>
      (match parseJsonStringBody (rest.length + 1) rest with
       | some (cs, r) => some (JsonVal.jstr cs, r)
       | none => none)
    | '[' :: rest =>
      (match rest.dropWhile isJsonWS with
       | ']' :: r2 => some (JsonVal.arr [], r2)
       | _ =>
         match parseJsonElems f rest with
         | some (vs, r2) => some (JsonVal.arr vs, r2)
         | none => none)
    | '{' :: rest =>
      (match rest.dropWhile isJsonWS with
       | '}' :: r2 => some (JsonVal.obj [], r2)
       | _ =>
         match parseJsonMembers f rest with
         | some (kvs, r2) => some (JsonVal.obj kvs, r2)
         | none => none)
    | rest =>
      match parseJsonNumber rest with
      | some (q, r) => some (JsonVal.num q, r)
      | none => none

/-- Array elements: values separated by commas, closed by a bracket. -/
def parseJsonElems (fuel : Nat) (s : Str) : Option (List JsonVal × Str) :=
  match fuel with
  | 0 => none
  | f + 1 =>
    match parseJsonValue f s with
    | none => none
    | some (v, r) =>
      match r.dropWhile isJsonWS with
      | ',' :: r2 =>
        (match parseJsonElems f r2 with
         | some (vs, r3) => some (v :: vs, r3)
         | none => none)
      | ']' :: r2 => some ([v], r2)
      | _ => none

/-- Object members: string keys, colons, values, separated by commas, closed
by a brace. -/
def parseJsonMembers (fuel : Nat) (s : Str) :
    Option (List (Str × JsonVal) × Str) :=
  match fuel with
  | 0 => none
  | f + 1 =>
    match s.dropWhile isJsonWS with
    | '"' :: rest =>
      (match parseJsonStringBody (rest.length + 1) rest with
       | none => none
       | some (k, r1) =>
         match r1.dropWhile isJsonWS with
         | ':' :: r2 =>
           (match parseJsonValue f r2 with
            | none => none
            | some (v, r3) =>
              match r3.dropWhile isJsonWS with
              | ',' :: r4 =>
                (match parseJsonMembers f r4 with
                 | some (kvs, r5) => some ((k, v) :: kvs, r5)
                 | none => none)
              | '}' :: r4 => some ([(k, v)], r4)
              | _ => none)
         | _ => none)
    | _ => none

end

/-- Whole-string JSON parsing (`JSON.parse`): one value, with only whitespace
allowed after it; `none` models a thrown `SyntaxError`. -/
def jsonParse (s : Str) : Option JsonVal :=
  match parseJsonValue (2 * s.length + 2) s with
  | some (v, r) => if r.dropWhile isJsonWS = [] then some v else none
  | none => none

/-- Result of a JS property access on a parsed JSON value: access on `null`
throws, a missing property (or access on a primitive) is `undefined`.  With
duplicate keys the last binding wins, as in `JSON.parse`. -/
inductive JsAccess where
  | thrown
  | undef
  | val (v : JsonVal)

/-- Property access `parsed[key]`. -/
def jsGetProp (v : JsonVal) (key : Str) : JsAccess :=
  match v with
  | JsonVal.null => JsAccess.thrown
  | JsonVal.obj kvs =>
    (match kvs.reverse.find? (fun p => p.1 == key) with
     | some p => JsAccess.val p.2
     | none => JsAccess.undef)
  | _ => JsAccess.undef

/-- Card drag payload (`CardDragPayload` in `src/drag-payload.ts`); the fields
hold the JS numbers, modelled as exact rationals. -/
structure CardDragPayload where
  columnIndex : ℚ
  itemIndex : ℚ
deriving DecidableEq, Repr

/-- Column drag payload (`ColumnDragPayload` in `src/drag-payload.ts`). -/
structure ColumnDragPayload where
  columnIndex : ℚ
deriving DecidableEq, Repr

/-- The `isNonNegativeInteger` guard of `src/drag-payload.ts`:
`Number.isInteger(value) && value >= 0`. -/
def isNonNegativeIntegerQ (q : ℚ) : Bool :=
  q.den == 1 && decide (0 ≤ q.num)

/-- Card-payload validation (`parseCardDragPayload` in
`src/drag-payload.ts`): empty strings are falsy and rejected; a thrown
`JSON.parse` or null-access error is caught and rejected; both fields must be
numbers passing the non-negative-integer guard. -/
def parseCardDragPayload (raw : Str) : Option CardDragPayload :=
  if raw = [] then none
  else
    match jsonParse raw with
    | none => none
    | some parsed =>
      match jsGetProp parsed (str "columnIndex") with
      | JsAccess.thrown => none
      | JsAccess.undef => none
      | JsAccess.val v =>
        match v with
        | JsonVal.num ci =>
          (match jsGetProp parsed (str "itemIndex") with
           | JsAccess.thrown => none
           | JsAccess.undef => none
           | JsAccess.val w =>
             match w with
             | JsonVal.num ii =>
               if isNonNegativeIntegerQ ci && isNonNegativeIntegerQ ii then
                 some { columnIndex := ci, itemIndex := ii }
               else none
             | _ => none)
        | _ => none

/-- Column-payload validation (`parseColumnDragPayload` in
`src/drag-payload.ts`). -/
def parseColumnDragPayload (raw : Str) : Option ColumnDragPayload :=
  if raw = [] then none
  else
    match jsonParse raw with
    | none => none
    | some parsed =>
      match jsGetProp parsed (str "columnIndex") with
      | JsAccess.thrown => none
      | JsAccess.undef => none
      | JsAccess.val v =>
        match v with
        | JsonVal.num ci =>
          if isNonNegativeIntegerQ ci then some { columnIndex := ci }
          else none
        | _ => none

/-! ### Generic string lemmas -/

theorem dropRightWhileL_eq_rdropWhile (p : Char → Bool) (s : Str) :
    dropRightWhileL p s = s.rdropWhile p := rfl

theorem head?_dropWhile_eq_some (p : Char → Bool) :
    ∀ (l : Str) (c : Char), (l.dropWhile p).head? = some c → p c = false := by
  intro l
  induction l with
  | nil => intro c h; simp [List.dropWhile] at h
  | cons x rest ih =>
    intro c h
    by_cases hx : p x
    · rw [List.dropWhile_cons_of_pos hx] at h
      exact ih c h
    · rw [List.dropWhile_cons_of_neg hx] at h
      simp only [List.head?_cons, Option.some.injEq] at h
      subst h
      exact Bool.eq_false_iff.mpr hx

theorem dropWhile_trimL (s : Str) : (trimL s).dropWhile isJsWS = trimL s := by
  rcases hnil : trimL s with _ | ⟨c, rest⟩
  · simp
  · have hpre : (trimL s).IsPrefix (s.dropWhile isJsWS) := by
      rw [trimL, dropRightWhileL_eq_rdropWhile]
      exact List.rdropWhile_prefix _ _
    rw [hnil] at hpre
    rcases hpre with ⟨t, ht⟩
    have hhead : (s.dropWhile isJsWS).head? = some c := by
      rw [← ht]; rfl
    have hc : isJsWS c = false := head?_dropWhile_eq_some isJsWS s c hhead
    rw [List.dropWhile_cons_of_neg (by simp [hc])]

theorem trimL_idem (s : Str) : trimL (trimL s) = trimL s := by
  conv_lhs => rw [trimL, dropWhile_trimL, dropRightWhileL_eq_rdropWhile]
  rw [trimL, dropRightWhileL_eq_rdropWhile]
  exact List.rdropWhile_idempotent _ _

theorem parseColumnDefinition_trimL (x : Str) :
    parseColumnDefinition (trimL x) = parseColumnDefinition x := by
  simp only [parseColumnDefinition, trimL_idem]

theorem parseColumnDefinition_rawName_eq (x : Str) :
    (parseColumnDefinition x).rawName = trimL x := by
  unfold parseColumnDefinition
  dsimp only
  repeat' split
  all_goals rfl

/-! ### C5 : column-definition suffix evaluation -/

/-- C5: the claim states a trailing hex token is recognized as the color
exactly when it has 3, 6, or 8 hex digits.  The code disagrees: the shape
regex of `normalizeHexColor` also accepts 5 hex digits (3 plus the optional
final 2), so the declaration whose braced suffix carries the 5-digit token
hash-abcde receives that token as its color.  This theorem evaluates the code
at that failing input. -/
theorem parseColumnDefinition_accepts_five_hex_digits :
    parseColumnDefinition (str "Todo \x7b\x23abcde\x7d") =
      { rawName := str "Todo \x7b\x23abcde\x7d", baseName := str "Todo",
        wipLimit := none, color := some (str "\x23abcde") } ∧
    normalizeHexColor (str "\x23abcde") = some (str "\x23abcde") := by decide

/-! ### C10 : a parsed board always has at least one column -/

theorem length_le_ensureColumn (r : RState) (d : ColumnDefinition) :
    r.length ≤ (ensureColumn r d).length := by
  unfold ensureColumn
  dsimp only
  split
  · simp [assocUpdate]
  · simp

theorem ensureColumn_ne_nil (r : RState) (d : ColumnDefinition) :
    ensureColumn r d ≠ [] := by
  unfold ensureColumn
  dsimp only
  split
  next c hfind =>
    intro hcontra
    rw [assocUpdate, List.map_eq_nil_iff] at hcontra
    subst hcontra
    simp [assocFind] at hfind
  next => simp

theorem length_le_itemStep (acc : RState × UsageMap) (it : KanbanItem) :
    acc.1.length ≤ (itemStep acc it).1.length := by
  unfold itemStep
  dsimp only
  split
  · simp [assocUpdate]
  · simp only [assocUpdate, List.length_map]
    exact length_le_ensureColumn _ _

theorem length_le_foldl_itemStep (items : List KanbanItem) :
    ∀ acc : RState × UsageMap,
      acc.1.length ≤ (items.foldl itemStep acc).1.length := by
  induction items with
  | nil => intro acc; simp
  | cons it rest ih =>
    intro acc
    calc acc.1.length ≤ (itemStep acc it).1.length := length_le_itemStep acc it
    _ ≤ _ := ih (itemStep acc it)

theorem map_foldl_itemStep_ne_nil (r : RState) (hr : r ≠ [])
    (items : List KanbanItem) (u : UsageMap)
    (g : Str × KanbanColumn → KanbanColumn) :
    (List.map g ((items.foldl itemStep (r, u)).1)) ≠ [] := by
  intro hc
  rw [List.map_eq_nil_iff] at hc
  have h1 := length_le_foldl_itemStep items (r, u)
  rw [hc] at h1
  simp at h1
  exact hr h1

theorem resolveBoard_columns_ne_nil (defs : List ColumnDefinition)
    (items : List KanbanItem) : (resolveBoard defs items).columns ≠ [] := by
  unfold resolveBoard
  dsimp only
  apply map_foldl_itemStep_ne_nil
  repeat' split
  all_goals first
    | exact ensureColumn_ne_nil _ _
    | assumption

/-- C10: for every input string, the parsed board has at least one column:
when nothing is declared and nothing can be inferred, the sentinel
`Uncategorized` column is synthesized, as the empty-input evaluation shows. -/
theorem parseKanbanSource_columns_ne_nil :
    (∀ s : Str, (parseKanbanSource s).columns ≠ []) ∧
    (parseKanbanSource (str "")).columns.map (fun c => c.name) =
      [DEFAULT_COLUMN] := by
  constructor
  · intro s
    unfold parseKanbanSource
    dsimp only
    exact resolveBoard_columns_ne_nil _ _
  · decide

/-! ### C4 : unrecognized lines are silently ignored -/

theorem splitLinesJS_no_newline (s : Str) (h : '\n' ∉ s) :
    splitLinesJS s = [s] := by
  induction s with
  | nil => rfl
  | cons c rest ih =>
    simp only [List.mem_cons, not_or] at h
    rw [splitLinesJS.eq_4 c rest]
    · rw [ih h.2]
    · intro rest1 hc hrest
      rw [hrest] at h
      exact h.2 (List.mem_cons_self _ _)
    · intro hc
      exact h.1 hc.symm

theorem splitLinesJS_append (l rest : Str) (h1 : '\n' ∉ l)
    (h2 : l.getLast? ≠ some '\r') :
    splitLinesJS (l ++ '\n' :: rest) = l :: splitLinesJS rest := by
  induction l with
  | nil => rw [List.nil_append, splitLinesJS.eq_3]
  | cons c l' ih =>
    simp only [List.mem_cons, not_or] at h1
    rw [List.cons_append, splitLinesJS.eq_4 c (l' ++ '\n' :: rest)]
    · have h2' : l'.getLast? ≠ some '\r' := by
        rcases heq1 : l' with _ | ⟨d, l''⟩
        · simp
        · rw [← heq1]
          rw [heq1, List.getLast?_cons_cons] at h2
          rw [heq1]
          exact h2
      rw [ih h1.2 h2']
    · intro rest1 hc happ
      rcases heq1 : l' with _ | ⟨d, l''⟩
      · rw [heq1] at h2
        subst hc
        simp at h2
      · rw [heq1, List.cons_append] at happ
        injection happ with hd _
        exact h1.2 (by rw [heq1, hd]; exact List.mem_cons_self _ _)
    · intro hc
      exact h1.1 hc.symm

theorem joinLines_singleton (a : Str) : joinLines [a] = a := by
  simp [joinLines, List.intercalate, List.intersperse]

theorem joinLines_cons (a : Str) (t : List Str) (h : t ≠ []) :
    joinLines (a :: t) = a ++ '\n' :: joinLines t := by
  rcases t with _ | ⟨b, t'⟩
  · exact absurd rfl h
  · simp [joinLines, List.intercalate, List.intersperse]

theorem splitLinesJS_joinLines (ls : List Str) (hne : ls ≠ [])
    (hclean : ∀ x ∈ ls, '\n' ∉ x ∧ x.getLast? ≠ some '\r') :
    splitLinesJS (joinLines ls) = ls := by
  induction ls with
  | nil => exact absurd rfl hne
  | cons a t ih =>
    rcases ht : t with _ | ⟨b, t'⟩
    · rw [joinLines_singleton]
      exact splitLinesJS_no_newline a (hclean a (by simp)).1
    · rw [← ht, joinLines_cons a t (by rw [ht]; simp)]
      rw [splitLinesJS_append a (joinLines t) (hclean a (by simp)).1
        (hclean a (by simp)).2]
      rw [ih (by rw [ht]; simp) (fun x hx => hclean x (List.mem_cons_of_mem _ hx))]

theorem stepLine_unrecognized (st : ParseState) (l : Str)
    (h1 : matchInlineColumns (trimL l) = none)
    (h2 : isColumnsHeader (trimL l) = false)
    (h3 : isItemsHeader (trimL l) = false)
    (h4 : matchListEntry (trimL l) = none)
    (h5 : startsWithJsWS l = false) :
    stepLine st l = st := by
  unfold stepLine
  dsimp only
  split
  · rfl
  · rw [h1]
    dsimp only
    rw [h2, h3]
    simp only [Bool.false_eq_true, if_false]
    rw [h4]
    unfold contStep
    rw [if_neg]
    intro hcond
    rw [h5] at hcond
    exact absurd hcond.2.2 (by simp)

theorem stepLine_blank (st : ParseState) (l : Str) (h : trimL l = []) :
    stepLine st l = st := by
  unfold stepLine
  rw [if_pos h]

/-- C4: the parser is total by construction (`parseKanbanSource` is a Lean
function), and a non-blank line that matches no recognized pattern — not the
inline `columns:` form, not a section header, not a list entry, and without
leading whitespace (so it cannot be a continuation) — contributes nothing:
deleting it from the line list leaves the parse unchanged. -/
theorem parseKanbanSource_ignores_unrecognized_line (ls₁ ls₂ : List Str) (l : Str)
    (hclean : ∀ x ∈ ls₁ ++ l :: ls₂, '\n' ∉ x ∧ x.getLast? ≠ some '\r')
    (_hnb : trimL l ≠ [])
    (h1 : matchInlineColumns (trimL l) = none)
    (h2 : isColumnsHeader (trimL l) = false)
    (h3 : isItemsHeader (trimL l) = false)
    (h4 : matchListEntry (trimL l) = none)
    (h5 : startsWithJsWS l = false) :
    parseKanbanSource (joinLines (ls₁ ++ l :: ls₂)) =
      parseKanbanSource (joinLines (ls₁ ++ ls₂)) := by
  unfold parseKanbanSource
  rw [splitLinesJS_joinLines (ls₁ ++ l :: ls₂) (by simp) hclean]
  rcases h12 : ls₁ ++ ls₂ with _ | ⟨x, t⟩
  · rcases List.append_eq_nil.mp h12 with ⟨ha, hb⟩
    subst ha; subst hb
    simp only [List.nil_append]
    have : joinLines ([] : List Str) = [] := rfl
    rw [this]
    have hsplit : splitLinesJS ([] : Str) = [[]] := rfl
    rw [hsplit]
    simp only [List.foldl_cons, List.foldl_nil]
    rw [stepLine_unrecognized _ l h1 h2 h3 h4 h5,
      stepLine_blank _ [] rfl]
  · rw [← h12,
      splitLinesJS_joinLines (ls₁ ++ ls₂) (by rw [h12]; simp)
        (fun x hx => hclean x (by
          rcases List.mem_append.mp hx with hx1 | hx2
          · exact List.mem_append.mpr (Or.inl hx1)
          · exact List.mem_append.mpr (Or.inr (List.mem_cons_of_mem _ hx2))))]
    rw [List.foldl_append, List.foldl_append, List.foldl_cons,
      stepLine_unrecognized _ l h1 h2 h3 h4 h5]


/-- Closed instance of `parseKanbanSource_ignores_unrecognized_line`. -/
theorem parseKanbanSource_ignores_unrecognized_line_witness :
    ((∀ x ∈ [str "columns:"] ++ str "?? unrecognized ??" :: [str "- Todo"],
        '\n' ∉ x ∧ x.getLast? ≠ some '\r') ∧
      trimL (str "?? unrecognized ??") ≠ [] ∧
      matchInlineColumns (trimL (str "?? unrecognized ??")) = none ∧
      isColumnsHeader (trimL (str "?? unrecognized ??")) = false ∧
      isItemsHeader (trimL (str "?? unrecognized ??")) = false ∧
      matchListEntry (trimL (str "?? unrecognized ??")) = none ∧
      startsWithJsWS (str "?? unrecognized ??") = false) ∧
    parseKanbanSource
        (joinLines ([str "columns:"] ++ str "?? unrecognized ??" :: [str "- Todo"])) =
      parseKanbanSource (joinLines ([str "columns:"] ++ [str "- Todo"])) :=
  ⟨by decide,
    parseKanbanSource_ignores_unrecognized_line [str "columns:"] [str "- Todo"]
      (str "?? unrecognized ??") (by decide) (by decide) (by decide) (by decide)
      (by decide) (by decide) (by decide)⟩

/-! ### C6 : continuation lines in the items section -/

/-- C6 counterexample: the claim states an indented non-empty line (in the
items section, after an item) is appended to the last item's text and is not
matched against the list-entry rule first.  The code tries the rules on the
trimmed line first, so the indented line `  - b` becomes a second item `b`
instead of extending the first item's text to `a` + newline + `- b`. -/
theorem stepLine_indented_list_line_counterexample :
    ((parseKanbanSource
        (str "items:" ++ '\n' :: str "- a" ++ '\n' :: str "  - b")).columns.map
      (fun c => c.items)) = [[str "a", str "b"]] ∧
    ¬ ([[str "a", str "b"]] = [[str "a" ++ '\n' :: str "- b"]]) := by decide

/-- C6 amended: in the items section with at least one item recorded, a
non-blank line with leading whitespace is appended as a new line to the last
item's text provided its trimmed form matches none of the earlier rules
(inline columns, section headers, list entry) — the rules are tried first. -/
theorem stepLine_continuation (st : ParseState) (rawLine : Str)
    (hsec : st.sec = some SectionKind.items) (hit : st.items ≠ [])
    (hws : startsWithJsWS rawLine = true)
    (hnb : trimL rawLine ≠ [])
    (h1 : matchInlineColumns (trimL rawLine) = none)
    (h2 : isColumnsHeader (trimL rawLine) = false)
    (h3 : isItemsHeader (trimL rawLine) = false)
    (h4 : matchListEntry (trimL rawLine) = none) :
    stepLine st rawLine =
      { st with items := appendToLastItem st.items (trimL rawLine) } := by
  unfold stepLine
  dsimp only
  rw [if_neg hnb, h1]
  dsimp only
  rw [h2, h3]
  simp only [Bool.false_eq_true, if_false]
  rw [h4]
  unfold contStep
  rw [if_pos ⟨hsec, hit, hws⟩, trimL_idem]
  rw [if_pos hnb]

/-- Closed instance of `stepLine_continuation`. -/
theorem stepLine_continuation_witness :
    ((({ sec := some SectionKind.items, defs := [],
          items := [{ status := str "A", text := str "one" }] } : ParseState).sec
        = some SectionKind.items) ∧
      (({ sec := some SectionKind.items, defs := [],
          items := [{ status := str "A", text := str "one" }] } : ParseState).items ≠ []) ∧
      startsWithJsWS (str "  more text") = true ∧
      trimL (str "  more text") ≠ [] ∧
      matchInlineColumns (trimL (str "  more text")) = none ∧
      isColumnsHeader (trimL (str "  more text")) = false ∧
      isItemsHeader (trimL (str "  more text")) = false ∧
      matchListEntry (trimL (str "  more text")) = none) ∧
    stepLine
        { sec := some SectionKind.items, defs := [],
          items := [{ status := str "A", text := str "one" }] }
        (str "  more text") =
      { sec := some SectionKind.items, defs := [],
        items := appendToLastItem
          [{ status := str "A", text := str "one" }] (trimL (str "  more text")) } :=
  ⟨by decide,
    stepLine_continuation _ _ (by decide) (by decide) (by decide) (by decide)
      (by decide) (by decide) (by decide) (by decide)⟩

/-! ### C3 : re-parsing a column's rawName -/

theorem strOr_ne_nil (a b : Str) (h : b ≠ []) : strOr a b ≠ [] := by
  unfold strOr
  split
  · exact h
  · assumption

theorem parseColumnDefinition_reparse (x : Str) :
    parseColumnDefinition (parseColumnDefinition x).rawName =
      parseColumnDefinition x := by
  rw [parseColumnDefinition_rawName_eq, parseColumnDefinition_trimL]

theorem parseColumnDefinition_baseName_ne_nil (x : Str) (h : trimL x ≠ []) :
    (parseColumnDefinition x).baseName ≠ [] := by
  unfold parseColumnDefinition
  dsimp only
  repeat' split
  all_goals
    first
      | exact strOr_ne_nil _ _ h
      | exact strOr_ne_nil _ _ (strOr_ne_nil _ _ h)

theorem normalizeHexColor_ne_some_nil (v : Str) :
    normalizeHexColor v ≠ some [] := by
  unfold normalizeHexColor
  dsimp only
  repeat' split
  all_goals simp_all

theorem parseColumnDefinition_color_ne_some_nil (x : Str) :
    (parseColumnDefinition x).color ≠ some [] := by
  unfold parseColumnDefinition
  dsimp only
  repeat' split
  all_goals first
    | exact normalizeHexColor_ne_some_nil _
    | simp

def ColWF (c : KanbanColumn) : Prop :=
  c.rawName ≠ [] ∧ c.name ≠ [] ∧ trimL c.rawName = c.rawName ∧
  (parseColumnDefinition c.rawName).baseName = c.name ∧
  ((parseColumnDefinition c.rawName).wipLimit ≠ none →
    c.wipLimit = (parseColumnDefinition c.rawName).wipLimit) ∧
  ((parseColumnDefinition c.rawName).color ≠ none →
    c.color = (parseColumnDefinition c.rawName).color) ∧
  c.color ≠ some []

theorem createColumn_wf (x : Str) (h : trimL x ≠ []) :
    ColWF (createColumnFromDefinition (parseColumnDefinition x)) := by
  unfold createColumnFromDefinition
  dsimp only
  have hbn := parseColumnDefinition_baseName_ne_nil x h
  have hname : strOr (parseColumnDefinition x).baseName
      (parseColumnDefinition x).rawName = (parseColumnDefinition x).baseName := by
    unfold strOr
    rw [if_neg hbn]
  refine ⟨?_, ?_, ?_, ?_, ?_, ?_, ?_⟩
  · rw [parseColumnDefinition_rawName_eq]; exact h
  · rw [hname]; exact hbn
  · rw [parseColumnDefinition_rawName_eq]; exact trimL_idem x
  · rw [hname, parseColumnDefinition_reparse]
  · intro _; rw [parseColumnDefinition_reparse]
  · intro _; rw [parseColumnDefinition_reparse]
  · exact parseColumnDefinition_color_ne_some_nil x

theorem fillDefinition_wf (d : ColumnDefinition) (c : KanbanColumn)
    (hc : ColWF c) : ColWF (fillDefinition d c) := by
  obtain ⟨h1, h2, h3, h4, h5, h6, h7⟩ := hc
  unfold fillDefinition
  dsimp only
  rw [if_neg h1, if_neg h2]
  split
  · next hset =>
    split
    · next hcol =>
      try dsimp only at hcol ⊢
      refine ⟨h1, h2, h3, h4, ?_, ?_, hcol.2.2⟩
      · intro hw
        have h5' := h5 hw
        rw [hset.1] at h5'
        exact absurd h5'.symm hw
      · intro hcolr
        have h6' := h6 hcolr
        rcases hcol.1 with hnone | hsomenil
        · rw [hnone] at h6'
          exact absurd h6'.symm hcolr
        · exact absurd hsomenil h7
    · next hcol =>
      refine ⟨h1, h2, h3, h4, ?_, h6, h7⟩
      intro hw
      have h5' := h5 hw
      rw [hset.1] at h5'
      exact absurd h5'.symm hw
  · next hset =>
    split
    · next hcol =>
      try dsimp only at hcol ⊢
      refine ⟨h1, h2, h3, h4, h5, ?_, hcol.2.2⟩
      intro hcolr
      have h6' := h6 hcolr
      rcases hcol.1 with hnone | hsomenil
      · rw [hnone] at h6'
        exact absurd h6'.symm hcolr
      · exact absurd hsomenil h7
    · next hcol =>
      exact ⟨h1, h2, h3, h4, h5, h6, h7⟩

def RWF (r : RState) : Prop := ∀ p ∈ r, ColWF p.2

theorem assocUpdate_wf (r : RState) (key : Str) (f : KanbanColumn → KanbanColumn)
    (hr : RWF r) (hf : ∀ c, ColWF c → ColWF (f c)) :
    RWF (assocUpdate r key f) := by
  intro p hp
  rw [assocUpdate] at hp
  rcases List.mem_map.mp hp with ⟨q, hq, heq⟩
  by_cases hk : (q.1 == key) = true
  · rw [if_pos hk] at heq
    rw [← heq]
    exact hf q.2 (hr q hq)
  · rw [if_neg hk] at heq
    rw [← heq]
    exact hr q hq

theorem ensureColumn_wf (r : RState) (hr : RWF r) (x : Str)
    (hx : trimL x ≠ []) : RWF (ensureColumn r (parseColumnDefinition x)) := by
  unfold ensureColumn
  dsimp only
  split
  · exact assocUpdate_wf _ _ _ hr (fun c hc => fillDefinition_wf _ c hc)
  · intro p hp
    rcases List.mem_append.mp hp with hp1 | hp2
    · exact hr p hp1
    · rw [List.mem_singleton] at hp2
      subst hp2
      exact createColumn_wf x hx

theorem pushItem_wf (c : KanbanColumn) (t : Str) (hc : ColWF c) :
    ColWF { c with items := c.items ++ [t] } := by
  obtain ⟨h1, h2, h3, h4, h5, h6, h7⟩ := hc
  exact ⟨h1, h2, h3, h4, h5, h6, h7⟩

theorem itemStep_wf (acc : RState × UsageMap) (it : KanbanItem)
    (hacc : RWF acc.1)
    (hst : trimL (strOr it.status DEFAULT_COLUMN) ≠ []) :
    RWF (itemStep acc it).1 := by
  unfold itemStep
  dsimp only
  have h1 : RWF (match assocFind acc.1
      (normalizeColumnKey (strOr it.status DEFAULT_COLUMN)) with
    | some _ => acc.1
    | none => ensureColumn acc.1
        (parseColumnDefinition (strOr it.status DEFAULT_COLUMN))) := by
    split
    · exact hacc
    · exact ensureColumn_wf acc.1 hacc _ hst
  exact assocUpdate_wf _ _ _ h1 (fun c hc => pushItem_wf c it.text hc)

theorem foldl_ensure_wf (defs : List ColumnDefinition) :
    ∀ r : RState, RWF r →
      (∀ d ∈ defs, ∃ x, trimL x ≠ [] ∧ d = parseColumnDefinition x) →
      RWF (defs.foldl ensureColumn r) := by
  induction defs with
  | nil => intro r hr _; exact hr
  | cons d rest ih =>
    intro r hr hdefs
    rw [List.foldl_cons]
    rcases hdefs d (List.mem_cons_self _ _) with ⟨x, hx, hdx⟩
    refine ih (ensureColumn r d) ?_ (fun e he => hdefs e (List.mem_cons_of_mem _ he))
    rw [hdx]
    exact ensureColumn_wf r hr x hx

theorem foldl_phase2_wf (items : List KanbanItem)
    (hitems : ∀ it ∈ items, it.status ≠ [] → trimL it.status = it.status) :
    ∀ r : RState, RWF r →
      RWF (items.foldl
        (fun r it => if it.status ≠ [] then
          ensureColumn r (parseColumnDefinition it.status) else r) r) := by
  induction items with
  | nil => intro r hr; exact hr
  | cons it rest ih =>
    intro r hr
    rw [List.foldl_cons]
    refine ih (fun it' h' => hitems it' (List.mem_cons_of_mem _ h')) _ ?_
    split
    · next hne =>
      refine ensureColumn_wf r hr it.status ?_
      rw [hitems it (List.mem_cons_self _ _) hne]
      exact hne
    · exact hr

theorem foldl_itemStep_wf (items : List KanbanItem)
    (hitems : ∀ it ∈ items, it.status ≠ [] ∧ trimL it.status = it.status) :
    ∀ acc : RState × UsageMap, RWF acc.1 →
      RWF (items.foldl itemStep acc).1 := by
  induction items with
  | nil => intro acc hacc; exact hacc
  | cons it rest ih =>
    intro acc hacc
    rw [List.foldl_cons]
    refine ih (fun it' h' => hitems it' (List.mem_cons_of_mem _ h')) _ ?_
    refine itemStep_wf acc it hacc ?_
    have h := hitems it (List.mem_cons_self _ _)
    unfold strOr
    rw [if_neg h.1, h.2]
    exact h.1

theorem resolveBoard_wf (defs : List ColumnDefinition) (items : List KanbanItem)
    (hdefs : ∀ d ∈ defs, ∃ x, trimL x ≠ [] ∧ d = parseColumnDefinition x)
    (hitems : ∀ it ∈ items, it.status ≠ [] ∧ trimL it.status = it.status) :
    ∀ c ∈ (resolveBoard defs items).columns, ColWF c := by
  intro c hc
  unfold resolveBoard at hc
  dsimp only at hc
  rcases List.mem_map.mp hc with ⟨p, hp, heq⟩
  have hr0 : RWF (defs.foldl ensureColumn []) :=
    foldl_ensure_wf defs [] (fun q hq => absurd hq (List.not_mem_nil q)) hdefs
  have hcol : ColWF p.2 := by
    refine foldl_itemStep_wf items hitems _ ?_ p hp
    show RWF _
    split
    · split
      · exact ensureColumn_wf _
          (foldl_phase2_wf items (fun it h hne => (hitems it h).2) _ hr0)
          DEFAULT_COLUMN (by decide)
      · exact foldl_phase2_wf items (fun it h hne => (hitems it h).2) _ hr0
    · exact hr0
  obtain ⟨h1, h2, h3, h4, h5, h6, h7⟩ := hcol
  unfold assignStatusName at heq
  dsimp only at heq
  split at heq
  · split at heq
    · rw [← heq]
      exact ⟨h1, h2, h3, h4, h5, h6, h7⟩
    · rw [← heq]
      exact ⟨h1, h2, h3, h4, h5, h6, h7⟩
  · rw [← heq]
    exact ⟨h1, h2, h3, h4, h5, h6, h7⟩

theorem statusOr_ok (y : Str) :
    strOr (trimL y) DEFAULT_COLUMN ≠ [] ∧
    trimL (strOr (trimL y) DEFAULT_COLUMN) = strOr (trimL y) DEFAULT_COLUMN := by
  unfold strOr
  split
  · exact ⟨by decide, by decide⟩
  · next h => exact ⟨h, trimL_idem y⟩

theorem parseItemEntry_status_ok (raw : Str) :
    (parseItemEntry raw).status ≠ [] ∧
    trimL (parseItemEntry raw).status = (parseItemEntry raw).status := by
  unfold parseItemEntry
  dsimp only
  repeat' split
  all_goals first
    | exact statusOr_ok _
    | exact statusOr_ok []

theorem appendToLastItem_status (P : Str → Prop) (cont : Str) :
    ∀ (items : List KanbanItem), (∀ it ∈ items, P it.status) →
      ∀ it ∈ appendToLastItem items cont, P it.status := by
  intro items
  induction items with
  | nil => intro _ it hit; exact absurd hit (List.not_mem_nil it)
  | cons a rest ih =>
    intro h it hit
    rcases rest with _ | ⟨b, rest'⟩
    · have heq : appendToLastItem [a] cont =
          [{ a with text := a.text ++ '\n' :: cont }] := rfl
      rw [heq, List.mem_singleton] at hit
      subst hit
      exact h a (List.mem_cons_self _ _)
    · have heq : appendToLastItem (a :: b :: rest') cont =
          a :: appendToLastItem (b :: rest') cont := rfl
      rw [heq] at hit
      rcases List.mem_cons.mp hit with h1 | h2
      · subst h1
        exact h it (List.mem_cons_self _ _)
      · exact ih (fun x hx => h x (List.mem_cons_of_mem _ hx)) it h2

def ScanOK (st : ParseState) : Prop :=
  (∀ d ∈ st.defs, ∃ x, trimL x ≠ [] ∧ d = parseColumnDefinition x) ∧
  (∀ it ∈ st.items, it.status ≠ [] ∧ trimL it.status = it.status)

theorem foldl_inline_defs_ok (entries : List Str) :
    ∀ acc : List ColumnDefinition,
      (∀ d ∈ acc, ∃ x, trimL x ≠ [] ∧ d = parseColumnDefinition x) →
      ∀ d ∈ entries.foldl (fun acc e =>
          let dd := parseColumnDefinition e
          if dd.rawName ≠ [] then acc ++ [dd] else acc) acc,
        ∃ x, trimL x ≠ [] ∧ d = parseColumnDefinition x := by
  induction entries with
  | nil => intro acc hacc d hd; exact hacc d hd
  | cons e rest ih =>
    intro acc hacc d hd
    rw [List.foldl_cons] at hd
    refine ih _ ?_ d hd
    intro d' hd'
    dsimp only at hd'
    split at hd'
    · next hne =>
      rcases List.mem_append.mp hd' with h1 | h2
      · exact hacc d' h1
      · rw [List.mem_singleton] at h2
        subst h2
        refine ⟨e, ?_, rfl⟩
        rw [← parseColumnDefinition_rawName_eq]
        exact hne
    · exact hacc d' hd'

theorem contStep_scanOK (st : ParseState) (rawLine line : Str)
    (hdefs : ∀ d ∈ st.defs, ∃ x, trimL x ≠ [] ∧ d = parseColumnDefinition x)
    (hitems : ∀ it ∈ st.items, it.status ≠ [] ∧ trimL it.status = it.status) :
    ScanOK (contStep st rawLine line) := by
  unfold contStep
  dsimp only
  split
  · split
    · exact ⟨hdefs, appendToLastItem_status
        (fun s => s ≠ [] ∧ trimL s = s) (trimL line) st.items hitems⟩
    · exact ⟨hdefs, hitems⟩
  · exact ⟨hdefs, hitems⟩

theorem stepLine_scanOK (st : ParseState) (l : Str) (h : ScanOK st) :
    ScanOK (stepLine st l) := by
  obtain ⟨hdefs, hitems⟩ := h
  unfold stepLine
  dsimp only
  split
  · exact ⟨hdefs, hitems⟩
  · split
    · next cap hcap =>
      exact ⟨foldl_inline_defs_ok _ _ hdefs, hitems⟩
    · split
      · exact ⟨hdefs, hitems⟩
      · split
        · exact ⟨hdefs, hitems⟩
        · split
          · next cap hcap =>
            split
            · split
              · next hne =>
                refine ⟨?_, hitems⟩
                intro d hd
                rcases List.mem_append.mp hd with h1 | h2
                · exact hdefs d h1
                · rw [List.mem_singleton] at h2
                  subst h2
                  refine ⟨trimL cap, ?_, ?_⟩
                  · rw [trimL_idem]; exact hne
                  · rfl
              · exact ⟨hdefs, hitems⟩
            · refine ⟨hdefs, ?_⟩
              intro it hit
              rcases List.mem_append.mp hit with h1 | h2
              · exact hitems it h1
              · rw [List.mem_singleton] at h2
                subst h2
                exact parseItemEntry_status_ok _
            · exact contStep_scanOK st l (trimL l) hdefs hitems
          · exact contStep_scanOK st l (trimL l) hdefs hitems

theorem parseKanbanSource_cols_wf (s : Str) :
    ∀ c ∈ (parseKanbanSource s).columns, ColWF c := by
  unfold parseKanbanSource
  dsimp only
  have hgen : ∀ (lines : List Str) (st : ParseState), ScanOK st →
      ScanOK (lines.foldl stepLine st) := by
    intro lines
    induction lines with
    | nil => intro st hst; exact hst
    | cons a rest ih =>
      intro st hst
      rw [List.foldl_cons]
      exact ih _ (stepLine_scanOK st a hst)
  have hscan := hgen (splitLinesJS s) ⟨none, [], []⟩
    ⟨fun d hd => absurd hd (List.not_mem_nil d),
     fun it hit => absurd hit (List.not_mem_nil it)⟩
  exact resolveBoard_wf _ _ hscan.1 hscan.2

set_option maxRecDepth 4000 in
/-- C3 counterexample: the claim states `rawName` always re-parses to the
column's current `wipLimit`.  After the duplicate declarations `Doing` and
`Doing (3)` the second fills in `wipLimit := 3`, but `rawName` stays `Doing`,
which re-parses with no WIP limit. -/
theorem rawName_wipLimit_fillin_counterexample :
    ∃ c ∈ (parseKanbanSource
        (str "columns:\n- Doing\n- Doing (3)")).columns,
      (parseColumnDefinition c.rawName).wipLimit ≠ c.wipLimit := by decide

/-- C3 amended: for every column of a parsed board, re-parsing `rawName`
reproduces the base name exactly, and any `wipLimit` or `color` that the
re-parse does produce agrees with the column's; but a field filled in by a
later duplicate declaration need not be reproduced by `rawName`. -/
theorem parseColumnDefinition_reproduces_column_fields (s : Str) :
    ∀ c ∈ (parseKanbanSource s).columns,
      (parseColumnDefinition c.rawName).baseName = c.name ∧
      ((parseColumnDefinition c.rawName).wipLimit ≠ none →
        c.wipLimit = (parseColumnDefinition c.rawName).wipLimit) ∧
      ((parseColumnDefinition c.rawName).color ≠ none →
        c.color = (parseColumnDefinition c.rawName).color) := by
  intro c hc
  obtain ⟨_, _, _, h4, h5, h6, _⟩ := parseKanbanSource_cols_wf s c hc
  exact ⟨h4, h5, h6⟩

set_option maxRecDepth 4000 in
/-- Closed instance of `parseColumnDefinition_reproduces_column_fields`. -/
theorem parseColumnDefinition_reproduces_column_fields_witness :
    (({ name := str "Doing", rawName := str "Doing (3)",
        statusName := str "Doing", wipLimit := some 3, color := none,
        items := [] } : KanbanColumn) ∈
      (parseKanbanSource (str "columns:\n- Doing (3)")).columns) ∧
    ((parseColumnDefinition (str "Doing (3)")).baseName = str "Doing" ∧
      ((parseColumnDefinition (str "Doing (3)")).wipLimit ≠ none →
        (some 3 : Option Nat) = (parseColumnDefinition (str "Doing (3)")).wipLimit) ∧
      ((parseColumnDefinition (str "Doing (3)")).color ≠ none →
        (none : Option Str) = (parseColumnDefinition (str "Doing (3)")).color)) :=
  ⟨by decide, parseColumnDefinition_reproduces_column_fields (str "columns:\n- Doing (3)")
    { name := str "Doing", rawName := str "Doing (3)",
      statusName := str "Doing", wipLimit := some 3, color := none,
      items := [] } (by decide)⟩

/-!
Move operations (claim C7).  The argument is by permutation reasoning: a
successful `moveCard` rewrites the source column with one item spliced out and
the target column with that item inserted, and both rewrites are tracked as a
multiset sum over the column list; `moveColumn` is a single erase/insert on
the column list itself.
-/

theorem insertIdx_perm_cons {α : Type} (a : α) :
    ∀ (n : Nat) (l : List α), n ≤ l.length → (l.insertIdx n a).Perm (a :: l) := by
  intro n
  induction n with
  | zero =>
    intro l _
    rw [List.insertIdx_zero]
  | succ m ih =>
    intro l hl
    rcases l with _ | ⟨x, t⟩
    · simp at hl
    · rw [List.insertIdx_succ_cons]
      exact ((ih t (Nat.le_of_succ_le_succ hl)).cons x).trans
        (List.Perm.swap a x t)

theorem get?_perm_cons_eraseIdx {α : Type} :
    ∀ (l : List α) (n : Nat) (x : α), l.get? n = some x →
      l.Perm (x :: l.eraseIdx n) := by
  intro l
  induction l with
  | nil => intro n x h; simp at h
  | cons y t ih =>
    intro n x h
    cases n with
    | zero =>
      rw [List.get?_cons_zero, Option.some.injEq] at h
      subst h
      rw [List.eraseIdx_cons_zero]
    | succ m =>
      rw [List.get?_cons_succ] at h
      rw [List.eraseIdx_cons_succ]
      exact ((ih m x h).cons y).trans (List.Perm.swap x y _)

theorem coe_flatten_eq_sum {α : Type} :
    ∀ (L : List (List α)),
      Multiset.ofList L.flatten = (L.map Multiset.ofList).sum := by
  intro L
  induction L with
  | nil => rfl
  | cons x t ih =>
    rw [List.flatten_cons, List.map_cons, List.sum_cons, ← ih]
    exact (Multiset.coe_add x t.flatten).symm

theorem jsIndex_eq_some {α : Type} (l : List α) (i : Int) (x : α)
    (h : jsIndex l i = some x) :
    0 ≤ i ∧ i.toNat < l.length ∧ l.get? i.toNat = some x := by
  unfold jsIndex at h
  split at h
  · next hcond =>
    refine ⟨hcond.1, ?_, h⟩
    omega
  · exact absurd h (by simp)

theorem clamp_toNat_le (i1 len : Int) (hlen : 0 ≤ len) :
    (if (if i1 < 0 then 0 else i1) > len then len
      else if i1 < 0 then 0 else i1).toNat ≤ len.toNat := by
  repeat' split
  all_goals omega

theorem moveColumn_columns_perm (b : KanbanBoard) (fj tj : Int) :
    ((moveColumn b fj tj).columns).Perm b.columns := by
  unfold moveColumn
  dsimp only
  split
  · exact List.Perm.refl _
  · split
    · exact List.Perm.refl _
    · next moved hmoved =>
      obtain ⟨h0, hlt, hget⟩ := jsIndex_eq_some _ _ _ hmoved
      dsimp only
      refine (insertIdx_perm_cons moved _ _ ?_).trans
        (get?_perm_cons_eraseIdx _ _ _ hget).symm
      have hb := clamp_toNat_le
        (if fj < (if (if tj < 0 then 0 else tj) > (b.columns.length : Int)
            then (b.columns.length : Int) else if tj < 0 then 0 else tj)
          then (if (if tj < 0 then 0 else tj) > (b.columns.length : Int)
            then (b.columns.length : Int) else if tj < 0 then 0 else tj) - 1
          else (if (if tj < 0 then 0 else tj) > (b.columns.length : Int)
            then (b.columns.length : Int) else if tj < 0 then 0 else tj))
        ((b.columns.eraseIdx fj.toNat).length : Int) (by omega)
      calc _ ≤ (((b.columns.eraseIdx fj.toNat).length : Int)).toNat := hb
      _ = (b.columns.eraseIdx fj.toNat).length := Int.toNat_natCast _

theorem ofList_perm {α : Type} {l₁ l₂ : List α} (h : l₁.Perm l₂) :
    Multiset.ofList l₁ = Multiset.ofList l₂ := Quot.sound h

theorem sum_map_set_add_g {β γ : Type} [AddCancelCommMonoid γ] (g : β → γ) :
    ∀ (L : List β) (i : Nat) (a : β) (h : i < L.length),
      ((L.set i a).map g).sum + g (L.get ⟨i, h⟩) = (L.map g).sum + g a := by
  intro L
  induction L with
  | nil => intro i a h; simp at h
  | cons x t ih =>
    intro i a h
    cases i with
    | zero =>
      rw [List.set_cons_zero]
      simp only [List.map_cons, List.sum_cons, List.get]
      abel
    | succ m =>
      rw [List.set_cons_succ]
      simp only [List.map_cons, List.sum_cons, List.get]
      have hm : m < t.length := Nat.lt_of_succ_lt_succ h
      have heq := ih m a hm
      calc g x + ((t.set m a).map g).sum + g (t.get ⟨m, hm⟩)
          = g x + (((t.set m a).map g).sum + g (t.get ⟨m, hm⟩)) := by abel
        _ = g x + ((t.map g).sum + g a) := by rw [heq]
        _ = g x + (t.map g).sum + g a := by abel

theorem sum_map_set_eq {β γ : Type} [AddCancelCommMonoid γ] (g : β → γ)
    (L : List β) (n : Nat) (h : n < L.length) (b : β)
    (hg : g b = g (L.get ⟨n, h⟩)) :
    ((L.set n b).map g).sum = (L.map g).sum := by
  have hadd := sum_map_set_add_g g L n b h
  rw [← hg] at hadd
  exact add_right_cancel hadd

theorem sum_map_double_set {β γ : Type} [AddCancelCommMonoid γ] (g : β → γ)
    (L : List β) (fn tn : Nat) (hf : fn < L.length) (ht : tn < L.length)
    (hne : fn ≠ tn) (a b : β)
    (hsum : g a + g b = g (L.get ⟨fn, hf⟩) + g (L.get ⟨tn, ht⟩)) :
    (((L.set fn a).set tn b).map g).sum = (L.map g).sum := by
  have ht' : tn < (L.set fn a).length := by
    rw [List.length_set]; exact ht
  have hA := sum_map_set_add_g g (L.set fn a) tn b ht'
  have hB := sum_map_set_add_g g L fn a hf
  have hgetne : (L.set fn a).get ⟨tn, ht'⟩ = L.get ⟨tn, ht⟩ := by
    rw [List.get_eq_getElem, List.get_eq_getElem]
    exact List.getElem_set_ne hne _
  rw [hgetne] at hA
  have key : (((L.set fn a).set tn b).map g).sum +
        (g (L.get ⟨tn, ht⟩) + g (L.get ⟨fn, hf⟩)) =
      (L.map g).sum + (g (L.get ⟨tn, ht⟩) + g (L.get ⟨fn, hf⟩)) := by
    calc (((L.set fn a).set tn b).map g).sum +
          (g (L.get ⟨tn, ht⟩) + g (L.get ⟨fn, hf⟩))
        = ((((L.set fn a).set tn b).map g).sum + g (L.get ⟨tn, ht⟩)) +
          g (L.get ⟨fn, hf⟩) := by abel
      _ = (((L.set fn a).map g).sum + g b) + g (L.get ⟨fn, hf⟩) := by rw [hA]
      _ = (((L.set fn a).map g).sum + g (L.get ⟨fn, hf⟩)) + g b := by abel
      _ = ((L.map g).sum + g a) + g b := by rw [hB]
      _ = (L.map g).sum + (g a + g b) := by abel
      _ = (L.map g).sum + (g (L.get ⟨fn, hf⟩) + g (L.get ⟨tn, ht⟩)) := by
          rw [hsum]
      _ = ((L.map g).sum) + (g (L.get ⟨tn, ht⟩) + g (L.get ⟨fn, hf⟩)) := by abel
  exact add_right_cancel key

theorem spliceRemoveOne_spec {α : Type} (l : List α) (start : Int) :
    ((spliceRemoveOne l start).1 = none ∧ (spliceRemoveOne l start).2 = l) ∨
    ∃ n : Nat, n < l.length ∧ (spliceRemoveOne l start).1 = l.get? n ∧
      (spliceRemoveOne l start).2 = l.eraseIdx n := by
  unfold spliceRemoveOne
  dsimp only
  split <;> split
  all_goals first
  | exact Or.inr ⟨_, by assumption, rfl, rfl⟩
  | exact Or.inl ⟨rfl, rfl⟩

theorem moveCard_items_ms (b : KanbanBoard) (fc fi tc ti : Int) :
    Multiset.ofList (boardItems (moveCard b fc fi tc ti)) =
      Multiset.ofList (boardItems b) := by
  unfold moveCard
  dsimp only
  split
  case _ src tgt0 hsrc htgt =>
    split
    case _ => rfl
    case _ moved hrem =>
      obtain ⟨hfc0, hfcl, hsrcget?⟩ := jsIndex_eq_some _ _ _ hsrc
      obtain ⟨htc0, htcl, htgtget?⟩ := jsIndex_eq_some _ _ _ htgt
      rcases spliceRemoveOne_spec src.items fi with ⟨h1, _⟩ | ⟨n, hn, h1, h2⟩
      · rw [hrem] at h1; exact absurd h1 (by simp)
      rw [hrem] at h1
      have permSrc :
          src.items.Perm (moved :: (spliceRemoveOne src.items fi).2) := by
        rw [h2]
        exact get?_perm_cons_eraseIdx _ _ _ h1.symm
      have hsrcget : b.columns.get ⟨fc.toNat, hfcl⟩ = src := by
        have h := hsrcget?
        rw [List.get?_eq_get hfcl] at h
        exact Option.some.inj h
      have htgtget : b.columns.get ⟨tc.toNat, htcl⟩ = tgt0 := by
        have h := htgtget?
        rw [List.get?_eq_get htcl] at h
        exact Option.some.inj h
      by_cases hcase : fc = tc
      · subst hcase
        have htgtidx : jsIndex (b.columns.set fc.toNat
            { src with items := (spliceRemoveOne src.items fi).2 }) fc =
            some { src with items := (spliceRemoveOne src.items fi).2 } := by
          unfold jsIndex
          rw [List.length_set]
          rw [if_pos ⟨hfc0, by omega⟩]
          rw [List.get?_eq_getElem?]
          exact List.getElem?_set_self hfcl
        rw [htgtidx, Option.getD_some]
        unfold boardItems
        dsimp only
        rw [coe_flatten_eq_sum, coe_flatten_eq_sum, List.map_map, List.map_map,
          List.set_set]
        refine sum_map_set_eq _ b.columns fc.toNat hfcl _ ?_
        dsimp only [Function.comp]
        rw [hsrcget]
        refine (ofList_perm (insertIdx_perm_cons moved _ _ ?_)).trans
          (ofList_perm permSrc).symm
        refine le_trans (clamp_toNat_le _ _ (by omega)) ?_
        exact le_of_eq (Int.toNat_natCast _)
      · have htgtidx2 : jsIndex (b.columns.set fc.toNat
            { src with items := (spliceRemoveOne src.items fi).2 }) tc =
            some tgt0 := by
          unfold jsIndex
          rw [List.length_set, if_pos ⟨htc0, by omega⟩, List.get?_eq_getElem?,
            List.getElem?_set_ne (by omega), ← List.get?_eq_getElem?]
          exact htgtget?
        rw [htgtidx2, Option.getD_some]
        unfold boardItems
        dsimp only
        rw [coe_flatten_eq_sum, coe_flatten_eq_sum, List.map_map, List.map_map]
        refine sum_map_double_set _ b.columns fc.toNat tc.toNat hfcl htcl
          (by omega) _ _ ?_
        dsimp only [Function.comp]
        rw [hsrcget, htgtget]
        have key : ∀ I : Nat, I ≤ tgt0.items.length →
            Multiset.ofList (spliceRemoveOne src.items fi).2 +
              Multiset.ofList (tgt0.items.insertIdx I moved) =
            Multiset.ofList (moved :: (spliceRemoveOne src.items fi).2) +
              Multiset.ofList tgt0.items := by
          intro I hI
          rw [ofList_perm (insertIdx_perm_cons moved I tgt0.items hI)]
          calc Multiset.ofList (spliceRemoveOne src.items fi).2 +
                Multiset.ofList (moved :: tgt0.items)
              = Multiset.ofList ((spliceRemoveOne src.items fi).2 ++
                  (moved :: tgt0.items)) := (Multiset.coe_add _ _).symm
            _ = Multiset.ofList ((moved :: (spliceRemoveOne src.items fi).2) ++
                  tgt0.items) := ofList_perm List.perm_middle
            _ = Multiset.ofList (moved :: (spliceRemoveOne src.items fi).2) +
                  Multiset.ofList tgt0.items := Multiset.coe_add _ _
        rw [ofList_perm permSrc]
        refine key _ ?_
        refine le_trans (clamp_toNat_le _ _ (by omega)) ?_
        exact le_of_eq (Int.toNat_natCast _)
  case _ => rfl

/-- C7: for all integer index arguments, `moveCard` preserves the multiset of
item texts across all columns (hence the total item count), and `moveColumn`
preserves the multiset of columns (hence the column count); both are total
functions of the embedding (the source code never throws on these paths), so
only order changes. -/
theorem moveCard_moveColumn_preserve_multisets (b : KanbanBoard)
    (fc fi tc ti fj tj : Int) :
    Multiset.ofList (boardItems (moveCard b fc fi tc ti)) =
      Multiset.ofList (boardItems b) ∧
    Multiset.ofList ((moveColumn b fj tj).columns) =
      Multiset.ofList b.columns ∧
    (boardItems (moveCard b fc fi tc ti)).length = (boardItems b).length ∧
    ((moveColumn b fj tj).columns).length = b.columns.length := by
  have h1 := moveCard_items_ms b fc fi tc ti
  have h2 := moveColumn_columns_perm b fj tj
  have h3 : (boardItems (moveCard b fc fi tc ti)).length =
      (boardItems b).length := by
    have h := congrArg Multiset.card h1
    rwa [Multiset.coe_card, Multiset.coe_card] at h
  exact ⟨h1, ofList_perm h2, h3, h2.length_eq⟩

/-!
Notation-style detection (claim C9).
-/

/-- A findSome? over elements that all map to none yields none. -/
theorem findSome?_all_none {α β : Type} (f : α → Option β) :
    ∀ l : List α, (∀ p ∈ l, f p = none) → l.findSome? f = none := by
  intro l
  induction l with
  | nil => intro _; rfl
  | cons x t ih =>
    intro h
    rw [List.findSome?_cons, h x (List.mem_cons_self x t)]
    exact ih (fun p hp => h p (List.mem_cons_of_mem x hp))

/-- findSome? returns the first hit after a prefix of misses. -/
theorem findSome?_append_first {α β : Type} (f : α → Option β) (l : α) (b : β)
    (hl : f l = some b) :
    ∀ pre post, (∀ p ∈ pre, f p = none) →
      (pre ++ l :: post).findSome? f = some b := by
  intro pre
  induction pre with
  | nil =>
    intro post _
    rw [List.nil_append, List.findSome?_cons, hl]
  | cons x t ih =>
    intro post h
    rw [List.cons_append, List.findSome?_cons, h x (List.mem_cons_self x t)]
    exact ih post (fun p hp => h p (List.mem_cons_of_mem x hp))

/-- C9: the merge's items-section notation style is the style exhibited by the
first existing list line that exhibits bracket or colon notation (first
conjunct), defaulting to bracket when no list line exhibits either (second
conjunct); and an item regenerated in colon style has its first line emitted
as `statusName: text`, never in bracket form (third conjunct). -/
theorem detectItemStyle_first_exhibitor (pre post : List Str) (l : Str)
    (sty : ItemStyle)
    (hpre : ∀ p ∈ pre, (detectLineContent p).bind exhibitsStyle = none)
    (hl : (detectLineContent l).bind exhibitsStyle = some sty) :
    detectItemStyle (pre ++ l :: post) = sty ∧
    (∀ lines : List Str,
      (∀ p ∈ lines, (detectLineContent p).bind exhibitsStyle = none) →
      detectItemStyle lines = ItemStyle.bracket) ∧
    (∀ status text : Str,
      formatItemLines status text ItemStyle.colon = [] ∨
      ∃ l0 rest, formatItemLines status text ItemStyle.colon =
        (status ++ str ": " ++ l0) :: rest) := by
  refine ⟨?_, ?_, ?_⟩
  · unfold detectItemStyle
    rw [findSome?_append_first _ l sty hl pre post hpre]
    rfl
  · intro lines h
    unfold detectItemStyle
    rw [findSome?_all_none _ lines h]
    rfl
  · intro status text
    unfold formatItemLines
    dsimp only
    split
    · exact Or.inl rfl
    · split
      · exact Or.inl rfl
      · exact Or.inr ⟨_, _, rfl⟩

/-- Witness for the C9 theorem on a concrete section. -/
theorem detectItemStyle_first_exhibitor_witness :
    ((∀ p ∈ [str "items:"], (detectLineContent p).bind exhibitsStyle = none) ∧
      (detectLineContent (str "- Doing: task")).bind exhibitsStyle =
        some ItemStyle.colon) ∧
    detectItemStyle ([str "items:"] ++ str "- Doing: task" :: []) =
      ItemStyle.colon ∧
    formatItemLines (str "Doing") (str "task") ItemStyle.colon =
      [str "Doing: task"] :=
  ⟨⟨by decide, by decide⟩,
    (detectItemStyle_first_exhibitor [str "items:"] [] (str "- Doing: task")
      ItemStyle.colon (by decide) (by decide)).1,
    by decide⟩

/-!
Drag-payload validation (claim C8).
-/

/-- Characterization of a successful card-payload validation: the string must
parse as JSON whose columnIndex and itemIndex properties are numbers passing
the non-negative-integer guard, and the fields carry exactly those numbers. -/
theorem parseCardDragPayload_char (raw : Str) (pl : CardDragPayload) :
    parseCardDragPayload raw = some pl ↔
      ∃ j, jsonParse raw = some j ∧
        jsGetProp j (str "columnIndex") =
          JsAccess.val (JsonVal.num pl.columnIndex) ∧
        jsGetProp j (str "itemIndex") =
          JsAccess.val (JsonVal.num pl.itemIndex) ∧
        isNonNegativeIntegerQ pl.columnIndex = true ∧
        isNonNegativeIntegerQ pl.itemIndex = true := by
  constructor
  · intro h
    unfold parseCardDragPayload at h
    by_cases hr : raw = []
    · rw [if_pos hr] at h
      exact absurd h (by simp)
    rw [if_neg hr] at h
    cases hj : jsonParse raw with
    | none => rw [hj] at h; simp at h
    | some parsed =>
      rw [hj] at h
      dsimp only at h
      cases hv : jsGetProp parsed (str "columnIndex") with
      | thrown => rw [hv] at h; simp at h
      | undef => rw [hv] at h; simp at h
      | val v =>
        rw [hv] at h
        dsimp only at h
        cases v with
        | null => simp at h
        | bool b => simp at h
        | jstr s => simp at h
        | arr vs => simp at h
        | obj kvs => simp at h
        | num ci =>
          cases hw : jsGetProp parsed (str "itemIndex") with
          | thrown => rw [hw] at h; simp at h
          | undef => rw [hw] at h; simp at h
          | val w =>
            rw [hw] at h
            dsimp only at h
            cases w with
            | null => simp at h
            | bool b => simp at h
            | jstr s => simp at h
            | arr vs => simp at h
            | obj kvs => simp at h
            | num ii =>
              dsimp only at h
              by_cases hg : (isNonNegativeIntegerQ ci &&
                  isNonNegativeIntegerQ ii) = true
              · rw [if_pos hg, Option.some.injEq] at h
                subst h
                rw [Bool.and_eq_true] at hg
                exact ⟨parsed, rfl, hv, hw, hg.1, hg.2⟩
              · rw [if_neg hg] at h
                simp at h
  · rintro ⟨parsed, hj, hv, hw, g1, g2⟩
    have hr : raw ≠ [] := by
      intro hre
      rw [hre] at hj
      have hnone : jsonParse [] = none := rfl
      rw [hnone] at hj
      exact absurd hj (by simp)
    unfold parseCardDragPayload
    rw [if_neg hr, hj]
    dsimp only
    rw [hv]
    dsimp only
    rw [hw]
    dsimp only
    rw [if_pos (by rw [Bool.and_eq_true]; exact ⟨g1, g2⟩)]

/-- Characterization of a successful column-payload validation. -/
theorem parseColumnDragPayload_char (raw : Str) (pl : ColumnDragPayload) :
    parseColumnDragPayload raw = some pl ↔
      ∃ j, jsonParse raw = some j ∧
        jsGetProp j (str "columnIndex") =
          JsAccess.val (JsonVal.num pl.columnIndex) ∧
        isNonNegativeIntegerQ pl.columnIndex = true := by
  constructor
  · intro h
    unfold parseColumnDragPayload at h
    by_cases hr : raw = []
    · rw [if_pos hr] at h
      exact absurd h (by simp)
    rw [if_neg hr] at h
    cases hj : jsonParse raw with
    | none => rw [hj] at h; simp at h
    | some parsed =>
      rw [hj] at h
      dsimp only at h
      cases hv : jsGetProp parsed (str "columnIndex") with
      | thrown => rw [hv] at h; simp at h
      | undef => rw [hv] at h; simp at h
      | val v =>
        rw [hv] at h
        dsimp only at h
        cases v with
        | null => simp at h
        | bool b => simp at h
        | jstr s => simp at h
        | arr vs => simp at h
        | obj kvs => simp at h
        | num ci =>
          dsimp only at h
          by_cases hg : isNonNegativeIntegerQ ci = true
          · rw [if_pos hg, Option.some.injEq] at h
            subst h
            exact ⟨parsed, rfl, hv, hg⟩
          · rw [if_neg hg] at h
            simp at h
  · rintro ⟨parsed, hj, hv, g1⟩
    have hr : raw ≠ [] := by
      intro hre
      rw [hre] at hj
      have hnone : jsonParse [] = none := rfl
      rw [hnone] at hj
      exact absurd hj (by simp)
    unfold parseColumnDragPayload
    rw [if_neg hr, hj]
    dsimp only
    rw [hv]
    dsimp only
    rw [if_pos g1]

set_option maxRecDepth 10000 in
/-- C8: parseCardDragPayload returns a typed payload if and only if the input
parses as JSON with numeric columnIndex and itemIndex fields that are
non-negative integers, and analogously for parseColumnDragPayload with its
single columnIndex field; every other string (including the empty string,
malformed JSON, a missing field, a non-number, a non-integer, or a negative
value) yields none, and no exception escapes (thrown JSON or null-access
errors are caught and modelled as none); in particular the three concrete
inputs of the claim behave as claimed. -/
theorem dragPayload_validation (raw : Str) :
    (∀ pl : CardDragPayload, parseCardDragPayload raw = some pl ↔
      ∃ j, jsonParse raw = some j ∧
        jsGetProp j (str "columnIndex") =
          JsAccess.val (JsonVal.num pl.columnIndex) ∧
        jsGetProp j (str "itemIndex") =
          JsAccess.val (JsonVal.num pl.itemIndex) ∧
        isNonNegativeIntegerQ pl.columnIndex = true ∧
        isNonNegativeIntegerQ pl.itemIndex = true) ∧
    (∀ pl : ColumnDragPayload, parseColumnDragPayload raw = some pl ↔
      ∃ j, jsonParse raw = some j ∧
        jsGetProp j (str "columnIndex") =
          JsAccess.val (JsonVal.num pl.columnIndex) ∧
        isNonNegativeIntegerQ pl.columnIndex = true) ∧
    parseCardDragPayload (str "\x7b\"columnIndex\":1,\"itemIndex\":3\x7d") =
      some { columnIndex := 1, itemIndex := 3 } ∧
    parseCardDragPayload (str "\x7b\"columnIndex\":-1,\"itemIndex\":0\x7d") =
      none ∧
    parseCardDragPayload (str "\x7bnot valid") = none ∧
    parseCardDragPayload (str "") = none :=
  ⟨fun pl => parseCardDragPayload_char raw pl,
    fun pl => parseColumnDragPayload_char raw pl,
    by decide, by decide, by decide, by decide⟩

/-!
Structural merge (claim C2).
-/

/-- The lines of a section that the splicer keeps in front of the generated
entries: the whole section when it has no list line, otherwise the lines
before the first list line. -/
def sectionKeepHead (sec : List Str) : List Str :=
  match sec.findIdx? isListLine with
  | none => sec
  | some f => sec.take f

/-- The lines of a section that the splicer keeps after the generated
entries: nothing when the section has no list line, otherwise the lines after
the last list line and its directly following blank or indented run. -/
def sectionKeepTail (sec : List Str) : List Str :=
  match sec.findIdx? isListLine with
  | none => []
  | some f =>
    let lastL := (lastListLineIdx sec).getD f
    sec.drop (lastL + trailingRun (sec.drop (lastL + 1)) + 1)

/-- buildSectionLines splices the rendered entries between the kept head and
the kept tail of the section. -/
theorem buildSectionLines_decomp (sec : List Str) (entries : List MergeEntry)
    (headerLine : Str) :
    buildSectionLines sec entries headerLine =
      sectionKeepHead sec ++
      entries.flatMap
        (fun e => formatListEntryLines e (getListPfx sec headerLine)) ++
      sectionKeepTail sec := by
  unfold buildSectionLines sectionKeepHead sectionKeepTail
  dsimp only
  cases h : sec.findIdx? isListLine with
  | none =>
    dsimp only
    rw [List.append_nil]
  | some f => dsimp only

/-- Elements before the found index all fail the predicate. -/
theorem findIdx?_prefix_false {α : Type} (p : α → Bool)
    (l : List α) (f : Nat) (hf : l.findIdx? p = some f) :
    ∀ x ∈ l.take f, p x = false := by
  intro x hx
  obtain ⟨hlen, _, hall⟩ := List.findIdx?_eq_some_iff_getElem.mp hf
  obtain ⟨j, hj, hjx⟩ := List.getElem_of_mem hx
  have hjf : j < f := by
    have := hj
    rw [List.length_take] at this
    omega
  have hjl : j < l.length := by omega
  have heq : (l.take f)[j] = l[j] := List.getElem_take l
  rw [heq] at hjx
  have hnp := hall j hjf
  rw [hjx] at hnp
  exact Bool.eq_false_iff.mpr hnp

/-- The element at the found index passes the predicate. -/
theorem findIdx?_getD_true {α : Type} (p : α → Bool) (d : α)
    (l : List α) (f : Nat) (hf : l.findIdx? p = some f) :
    p (l.getD f d) = true := by
  obtain ⟨hlen, hp, _⟩ := List.findIdx?_eq_some_iff_getElem.mp hf
  rw [List.getD_eq_getElem?_getD, List.getElem?_eq_getElem hlen,
    Option.getD_some]
  exact hp

/-- With no found index every element fails the predicate. -/
theorem findIdx?_none_false {α : Type} (p : α → Bool)
    (l : List α) (h : l.findIdx? p = none) : ∀ x ∈ l, p x = false :=
  fun x hx => List.findIdx?_eq_none_iff.mp h x hx

/-- No kept head line is a list line. -/
theorem sectionKeepHead_not_list (sec : List Str) :
    ∀ l ∈ sectionKeepHead sec, isListLine l = false := by
  unfold sectionKeepHead
  cases h : sec.findIdx? isListLine with
  | none => exact findIdx?_none_false _ sec h
  | some f => exact findIdx?_prefix_false _ sec f h

/-- C2: when the block has a columns header strictly before an items header,
the merge output is the original lines up to and including the columns header,
then the columns section's kept head, generated column entries and kept tail,
then the original items header line, then the same decomposition of the items
section; the kept heads contain no list line and the kept parts are take/drop
fragments of the original block, hence byte-identical to it. -/
theorem mergeKanbanBlockLines_preserves_context (blockLines : List Str)
    (board : KanbanBoard) (ci ii : Nat)
    (hci : findHeaderIdx blockLines isColumnsHeader = some ci)
    (hii : findHeaderIdx blockLines isItemsHeader = some ii)
    (hlt : ci < ii) :
    (∃ genC genI : List Str,
      mergeKanbanBlockLines blockLines board =
        blockLines.take (ci + 1) ++
        (sectionKeepHead ((blockLines.drop (ci + 1)).take (ii - (ci + 1))) ++
          genC ++
          sectionKeepTail ((blockLines.drop (ci + 1)).take (ii - (ci + 1)))) ++
        [blockLines.getD ii []] ++
        (sectionKeepHead (blockLines.drop (ii + 1)) ++ genI ++
          sectionKeepTail (blockLines.drop (ii + 1)))) ∧
    (∀ sec : List Str, ∀ l ∈ sectionKeepHead sec, isListLine l = false) ∧
    isColumnsHeader (trimL (blockLines.getD ci [])) = true ∧
    isItemsHeader (trimL (blockLines.getD ii [])) = true := by
  refine ⟨?_, sectionKeepHead_not_list, ?_, ?_⟩
  · refine ⟨(board.columns.map (fun c => MergeEntry.s c.rawName)).flatMap
        (fun e => formatListEntryLines e (getListPfx
          ((blockLines.drop (ci + 1)).take (ii - (ci + 1)))
          (blockLines.getD ci []))),
      (board.columns.flatMap (fun c => c.items.flatMap (fun t =>
          if formatItemLines c.statusName t
              (detectItemStyle (blockLines.drop (ii + 1))) = [] then []
          else [MergeEntry.ls (formatItemLines c.statusName t
            (detectItemStyle (blockLines.drop (ii + 1))))]))).flatMap
        (fun e => formatListEntryLines e
          (getListPfx (blockLines.drop (ii + 1)) (blockLines.getD ii []))),
      ?_⟩
    unfold mergeKanbanBlockLines
    rw [hci, hii]
    dsimp only
    rw [if_neg (by omega)]
    rw [buildSectionLines_decomp, buildSectionLines_decomp]
  · exact findIdx?_getD_true _ _ blockLines ci hci
  · exact findIdx?_getD_true _ _ blockLines ii hii

/-- A concrete block with prose around both headers. -/
def demoBlockLines : List Str :=
  [str "prose", str "columns:", str "- A", str "items:", str "- x: y",
    str "tail"]

/-- Witness for the C2 theorem on a concrete block. -/
theorem mergeKanbanBlockLines_preserves_context_witness :
    (∃ genC genI : List Str,
      mergeKanbanBlockLines demoBlockLines
          (parseKanbanSource (str "columns:")) =
        demoBlockLines.take 2 ++
        (sectionKeepHead ((demoBlockLines.drop 2).take 1) ++ genC ++
          sectionKeepTail ((demoBlockLines.drop 2).take 1)) ++
        [demoBlockLines.getD 3 []] ++
        (sectionKeepHead (demoBlockLines.drop 4) ++ genI ++
          sectionKeepTail (demoBlockLines.drop 4))) ∧
    (∀ sec : List Str, ∀ l ∈ sectionKeepHead sec, isListLine l = false) ∧
    isColumnsHeader (trimL (demoBlockLines.getD 1 [])) = true ∧
    isItemsHeader (trimL (demoBlockLines.getD 3 [])) = true :=
  mergeKanbanBlockLines_preserves_context demoBlockLines
    (parseKanbanSource (str "columns:")) 1 3 (by decide) (by decide)
    (by decide)

/-!
Round-trip of parse, serialize, parse (claim C1).  The comparison view of a
column is its normalized base name, wipLimit, color and ordered item texts,
as named by the claim.  The predicates below (`lineOK` through `boardOK`)
delimit the boards on which the round trip is faithful; the counterexample
theorem shows three parser-producible boards outside them where it fails.
-/

/-- The column view compared by the claim. -/
def boardView (c : KanbanColumn) : Str × Option Nat × Option Str × List Str :=
  (normalizeKey c.name, c.wipLimit, c.color, c.items)

/-- The round trip named by the claim. -/
def roundTrip (s : Str) : KanbanBoard :=
  parseKanbanSource (serializeKanbanBoard (parseKanbanSource s))

set_option maxRecDepth 8000 in
/-- C1 (counterexample): the round trip is not faithful in general.  Three
failure modes, each evaluated by the kernel: a wipLimit filled in from a
duplicate declaration is lost because rawName keeps the first declaration's
text; a column name containing a closing bracket breaks the bracket notation
used by the serializer; a statusName that itself carries a wip-style suffix
normalizes to a different key on re-parse, moving the items. -/
theorem parse_serialize_parse_counterexample :
    ((roundTrip (str "columns:\n- Doing\n- Doing (5)")).columns.map boardView ≠
      (parseKanbanSource (str "columns:\n- Doing\n- Doing (5)")).columns.map
        boardView) ∧
    ((roundTrip (str "columns:\n- A]B\nitems:\n- A]B: t")).columns.map
        boardView ≠
      (parseKanbanSource (str "columns:\n- A]B\nitems:\n- A]B: t")).columns.map
        boardView) ∧
    ((roundTrip
        (str "columns:\n- Doing (3) (5)\nitems:\n- [Doing (3) (7)] t")).columns.map
        boardView ≠
      (parseKanbanSource
        (str "columns:\n- Doing (3) (5)\nitems:\n- [Doing (3) (7)] t")).columns.map
        boardView) :=
  ⟨by decide, by decide, by decide⟩

/-- The first character exists and is not JS whitespace. -/
def headNonWS (l : Str) : Bool :=
  match l.head? with
  | some c => !isJsWS c
  | none => false

/-- The last character exists and is not JS whitespace. -/
def lastNonWS (l : Str) : Bool :=
  match l.getLast? with
  | some c => !isJsWS c
  | none => false

/-- A line that survives serialization verbatim: nonempty, free of line terminators (regex dot characters only), and trimmed. -/
def lineOK (l : Str) : Bool :=
  !l.isEmpty && l.all isDotChar && headNonWS l && lastNonWS l

/-- A continuation line must additionally match none of the scanner rules, or the re-parse would not treat it as a continuation. -/
def contLineOK (l : Str) : Bool :=
  lineOK l && (matchInlineColumns l).isNone && !isColumnsHeader l &&
  !isItemsHeader l && (matchListEntry l).isNone

/-- An item text whose serialized lines re-parse to the same text: no carriage return, trimmed, first line a proper line, later lines proper continuations. -/
def textOK (t : Str) : Bool :=
  !t.contains '\r' && headNonWS t && lastNonWS t &&
  (match splitLinesJS t with
   | l0 :: rest => lineOK l0 && rest.all contLineOK
   | [] => false)

/-- The resolver key of a column. -/
def keyOf (c : KanbanColumn) : Str := normalizeColumnKey c.rawName

/-- A column whose serialized declaration and items re-parse faithfully: rawName is a clean trimmed line reproducing name, wipLimit and color; statusName is clean, bracket-free and (when items exist) resolves to the same key; all item texts are well-formed. -/
def colOK (c : KanbanColumn) : Bool :=
  lineOK c.rawName &&
  ((parseColumnDefinition c.rawName).baseName == c.name) &&
  decide ((parseColumnDefinition c.rawName).wipLimit = c.wipLimit) &&
  decide ((parseColumnDefinition c.rawName).color = c.color) &&
  lineOK c.statusName && !c.statusName.contains ']' &&
  (c.items.isEmpty || normalizeColumnKey c.statusName == keyOf c) &&
  c.items.all textOK

/-- The boards on which the round trip is proved faithful. -/
def boardOK (b : KanbanBoard) : Bool :=
  !b.columns.isEmpty && b.columns.all colOK &&
  decide ((b.columns.map keyOf).Nodup)

theorem dropWhile_eq_self_of_head (s : Str)
    (h : ∀ c, s.head? = some c → isJsWS c = false) :
    s.dropWhile isJsWS = s := by
  cases s with
  | nil => rfl
  | cons c t =>
    rw [List.dropWhile_cons_of_neg]
    rw [h c rfl]
    simp

theorem dropRightWhileL_eq_self (s : Str)
    (h : ∀ c, s.getLast? = some c → isJsWS c = false) :
    dropRightWhileL isJsWS s = s := by
  unfold dropRightWhileL
  rw [dropWhile_eq_self_of_head s.reverse
    (fun c hc => h c (by rwa [List.head?_reverse] at hc)),
    List.reverse_reverse]

theorem trimL_eq_self (s : Str)
    (hh : ∀ c, s.head? = some c → isJsWS c = false)
    (hl : ∀ c, s.getLast? = some c → isJsWS c = false) :
    trimL s = s := by
  unfold trimL
  rw [dropWhile_eq_self_of_head s hh, dropRightWhileL_eq_self s hl]

theorem headNonWS_spec (l : Str) (h : headNonWS l = true) :
    ∀ c, l.head? = some c → isJsWS c = false := by
  intro c hc
  unfold headNonWS at h
  rw [hc] at h
  simpa using h

theorem lastNonWS_spec (l : Str) (h : lastNonWS l = true) :
    ∀ c, l.getLast? = some c → isJsWS c = false := by
  intro c hc
  unfold lastNonWS at h
  rw [hc] at h
  simpa using h

theorem lineOK_spec (l : Str) (h : lineOK l = true) :
    l ≠ [] ∧ l.all isDotChar = true ∧ trimL l = l ∧
    (∀ c, l.head? = some c → isJsWS c = false) ∧
    (∀ c, l.getLast? = some c → isJsWS c = false) := by
  unfold lineOK at h
  simp only [Bool.and_eq_true] at h
  obtain ⟨⟨⟨h1, h2⟩, h3⟩, h4⟩ := h
  have hh := headNonWS_spec l h3
  have hl := lastNonWS_spec l h4
  exact ⟨by simpa using h1, h2, trimL_eq_self l hh hl, hh, hl⟩

theorem takeWhile_nil_of_head (s : Str)
    (h : ∀ c, s.head? = some c → isJsWS c = false) :
    s.takeWhile isJsWS = [] := by
  cases s with
  | nil => rfl
  | cons c t =>
    rw [List.takeWhile_cons_of_neg]
    rw [h c rfl]
    simp

theorem getLast?_append_right (l s : Str) (h : s ≠ []) :
    (l ++ s).getLast? = s.getLast? := by
  induction l with
  | nil => rfl
  | cons a t ih =>
    rw [List.cons_append]
    rcases ht : t ++ s with _ | ⟨b, u⟩
    · rcases s with _ | _
      · exact absurd rfl h
      · simp at ht
    · rw [List.getLast?_cons_cons, ← ht, ih]

theorem trimL_ws_prefix (w s : Str) (hw : ∀ c ∈ w, isJsWS c = true)
    (hh : ∀ c, s.head? = some c → isJsWS c = false)
    (hl : ∀ c, s.getLast? = some c → isJsWS c = false) :
    trimL (w ++ s) = s := by
  unfold trimL
  rw [List.dropWhile_append]
  have hwnil : w.dropWhile isJsWS = [] := by
    rw [List.dropWhile_eq_nil_iff]
    intro x hx
    rw [hw x hx]
  rw [hwnil]
  simp only [List.isEmpty_nil, if_pos]
  rw [dropWhile_eq_self_of_head s hh, dropRightWhileL_eq_self s hl]

theorem matchInlineColumns_dash (s : Str) :
    matchInlineColumns ('-' :: s) = none := by
  unfold matchInlineColumns
  rw [if_neg]
  intro heq
  rw [show lowerL (('-' :: s).take 8) = '-' :: lowerL (s.take 7) from rfl,
    show str "columns:" = 'c' :: str "olumns:" from rfl] at heq
  injection heq with h1 _
  exact absurd h1 (by decide)

theorem isColumnsHeader_dash (s : Str) : isColumnsHeader ('-' :: s) = false := by
  unfold isColumnsHeader
  rw [show lowerL ('-' :: s) = '-' :: lowerL s from rfl,
    show str "columns:" = 'c' :: str "olumns:" from rfl, List.cons_beq_cons]
  rw [show (('-' : Char) == 'c') = false from rfl]
  simp

theorem isItemsHeader_dash (s : Str) : isItemsHeader ('-' :: s) = false := by
  unfold isItemsHeader
  rw [show lowerL ('-' :: s) = '-' :: lowerL s from rfl,
    show str "items:" = 'i' :: str "tems:" from rfl, List.cons_beq_cons]
  rw [show (('-' : Char) == 'i') = false from rfl]
  simp

theorem matchListEntry_dash (rn : Str)
    (hh : ∀ c, rn.head? = some c → isJsWS c = false)
    (hd : rn.all isDotChar = true) :
    matchListEntry ('-' :: ' ' :: rn) = some rn := by
  simp only [matchListEntry]
  rw [if_pos (by rfl)]
  rw [List.takeWhile_cons_of_pos (by rfl), takeWhile_nil_of_head rn hh,
    List.dropWhile_cons_of_pos (by rfl), dropWhile_eq_self_of_head rn hh]
  rw [if_pos]
  exact ⟨by simp, hd⟩

theorem bracketScan_close (l0 acc : Str) (hacc : acc ≠ [])
    (hh : ∀ c, l0.head? = some c → isJsWS c = false)
    (hd : l0.all isDotChar = true) :
    bracketScan (']' :: ' ' :: l0) acc = some (acc.reverse, l0) := by
  rw [bracketScan.eq_2]
  rw [List.dropWhile_cons_of_pos (by rfl), dropWhile_eq_self_of_head l0 hh]
  rw [if_pos ⟨hacc, hd⟩]

theorem bracketScan_cons (c : Char) (t acc : Str) (hne : c ≠ ']')
    (hdot : isDotChar c = true) :
    bracketScan (c :: t) acc = bracketScan t (c :: acc) := by
  rw [bracketScan.eq_3]
  · rw [if_pos hdot]
  · exact hne

theorem bracketScan_exact :
    ∀ (st acc l0 : Str),
      st.all (fun c => isDotChar c && !(c == ']')) = true →
      (acc ≠ [] ∨ st ≠ []) →
      (∀ c, l0.head? = some c → isJsWS c = false) →
      l0.all isDotChar = true →
      bracketScan (st ++ ']' :: ' ' :: l0) acc =
        some (acc.reverse ++ st, l0) := by
  intro st
  induction st with
  | nil =>
    intro acc l0 _ hor hh hd
    rcases hor with hacc | hst
    · rw [List.nil_append, bracketScan_close l0 acc hacc hh hd,
        List.append_nil]
    · exact absurd rfl hst
  | cons c st' ih =>
    intro acc l0 hall hor hh hd
    rw [List.all_cons, Bool.and_eq_true, Bool.and_eq_true] at hall
    obtain ⟨⟨hdot, hne⟩, hall'⟩ := hall
    rw [List.cons_append,
      bracketScan_cons c _ acc (by simpa using hne) hdot,
      ih (c :: acc) l0 hall' (Or.inl (by simp)) hh hd]
    rw [List.reverse_cons, List.append_assoc, List.singleton_append]

theorem not_contains_all_ne (l : Str) (a : Char) (h : l.contains a = false) :
    ∀ c ∈ l, (c == a) = false := by
  intro c hc
  rw [List.contains_eq_any_beq] at h
  by_contra hca
  rw [Bool.not_eq_false, beq_iff_eq] at hca
  have hany : l.any (a == ·) = true :=
    List.any_eq_true.mpr ⟨c, hc, by rw [hca]; simp⟩
  rw [hany] at h
  exact absurd h (by simp)

theorem parseItemEntry_bracket (stn l0 : Str)
    (hs : lineOK stn = true) (hnb : stn.contains ']' = false)
    (hl : lineOK l0 = true) :
    parseItemEntry ('[' :: (stn ++ ']' :: ' ' :: l0)) =
      { status := stn, text := l0 } := by
  obtain ⟨hs1, hs2, hs3, hs4, hs5⟩ := lineOK_spec stn hs
  obtain ⟨hl1, hl2, hl3, hl4, hl5⟩ := lineOK_spec l0 hl
  have htrim : trimL ('[' :: (stn ++ ']' :: ' ' :: l0)) =
      '[' :: (stn ++ ']' :: ' ' :: l0) := by
    refine trimL_eq_self _ (fun c hc => ?_) (fun c hc => ?_)
    · rw [List.head?_cons, Option.some.injEq] at hc
      subst hc; rfl
    · rw [show ('[' :: (stn ++ ']' :: ' ' :: l0)) =
          ('[' :: stn ++ [']', ' ']) ++ l0 by simp,
        getLast?_append_right _ l0 hl1] at hc
      exact hl5 c hc
  have hall : stn.all (fun c => isDotChar c && !(c == ']')) = true := by
    rw [List.all_eq_true]
    intro c hc
    rw [Bool.and_eq_true]
    constructor
    · exact (List.all_eq_true.mp hs2) c hc
    · rw [not_contains_all_ne stn ']' hnb c hc]; rfl
  have hbm : bracketMatch ('[' :: (stn ++ ']' :: ' ' :: l0)) =
      some (stn, l0) := by
    show bracketScan (stn ++ ']' :: ' ' :: l0) [] = some (stn, l0)
    rw [bracketScan_exact stn [] l0 hall (Or.inr hs1) hl4 hl2,
      List.reverse_nil, List.nil_append]
  unfold parseItemEntry
  rw [htrim]
  dsimp only
  rw [hbm]
  dsimp only
  rw [hs3, hl3]
  unfold strOr
  rw [if_neg hs1, if_neg hl1]

theorem trimL_bullet (x : Str) (hx : x ≠ [])
    (hh : ∀ c, x.head? = some c → isJsWS c = false)
    (hl : ∀ c, x.getLast? = some c → isJsWS c = false) :
    trimL (str "  - " ++ x) = '-' :: ' ' :: x := by
  rw [show str "  - " ++ x = [' ', ' '] ++ ('-' :: ' ' :: x) from rfl]
  refine trimL_ws_prefix _ _ (by decide) (fun c hc => ?_)
    (fun c hc => ?_)
  · rw [List.head?_cons, Option.some.injEq] at hc
    subst hc; rfl
  · rw [show ('-' :: ' ' :: x) = ['-', ' '] ++ x from rfl,
      getLast?_append_right _ x hx] at hc
    exact hl c hc

theorem stepLine_colLine (st : ParseState) (rn : Str)
    (hOK : lineOK rn = true) (hsec : st.sec = some SectionKind.columns) :
    stepLine st (str "  - " ++ rn) =
      { st with defs := st.defs ++ [parseColumnDefinition rn] } := by
  obtain ⟨h1, h2, h3, h4, h5⟩ := lineOK_spec rn hOK
  unfold stepLine
  dsimp only
  rw [trimL_bullet rn h1 h4 h5]
  rw [if_neg (by simp)]
  rw [matchInlineColumns_dash]
  dsimp only
  rw [isColumnsHeader_dash]
  rw [if_neg (by simp)]
  rw [isItemsHeader_dash]
  rw [if_neg (by simp)]
  rw [matchListEntry_dash rn h4 h2]
  dsimp only
  rw [hsec]
  dsimp only
  rw [h3]
  rw [if_pos h1]

theorem stepLine_itemFirst (st : ParseState) (stn l0 : Str)
    (hs : lineOK stn = true) (hnb : stn.contains ']' = false)
    (hl : lineOK l0 = true) (hsec : st.sec = some SectionKind.items) :
    stepLine st (str "  - " ++ ('[' :: (stn ++ ']' :: ' ' :: l0))) =
      { st with items := st.items ++ [{ status := stn, text := l0 }] } := by
  obtain ⟨hs1, hs2, hs3, hs4, hs5⟩ := lineOK_spec stn hs
  obtain ⟨hl1, hl2, hl3, hl4, hl5⟩ := lineOK_spec l0 hl
  have hfh : ∀ c, ('[' :: (stn ++ ']' :: ' ' :: l0)).head? = some c →
      isJsWS c = false := by
    intro c hc
    rw [List.head?_cons, Option.some.injEq] at hc
    subst hc; rfl
  have hfl : ∀ c, ('[' :: (stn ++ ']' :: ' ' :: l0)).getLast? = some c →
      isJsWS c = false := by
    intro c hc
    rw [show ('[' :: (stn ++ ']' :: ' ' :: l0)) =
        ('[' :: stn ++ [']', ' ']) ++ l0 by simp,
      getLast?_append_right _ l0 hl1] at hc
    exact hl5 c hc
  have hfd : ('[' :: (stn ++ ']' :: ' ' :: l0)).all isDotChar = true := by
    rw [List.all_cons, Bool.and_eq_true]
    refine ⟨rfl, ?_⟩
    rw [List.all_append, List.all_cons, List.all_cons, hs2, hl2]
    rfl
  unfold stepLine
  dsimp only
  rw [trimL_bullet _ (by simp) hfh hfl]
  rw [if_neg (by simp)]
  rw [matchInlineColumns_dash]
  dsimp only
  rw [isColumnsHeader_dash]
  rw [if_neg (by simp)]
  rw [isItemsHeader_dash]
  rw [if_neg (by simp)]
  rw [matchListEntry_dash _ hfh hfd]
  dsimp only
  rw [hsec]
  dsimp only
  have htr : trimL ('[' :: (stn ++ ']' :: ' ' :: l0)) =
      '[' :: (stn ++ ']' :: ' ' :: l0) := trimL_eq_self _ hfh hfl
  rw [htr, parseItemEntry_bracket stn l0 hs hnb hl]

theorem stepLine_contLine (st : ParseState) (l : Str)
    (hOK : contLineOK l = true) (hsec : st.sec = some SectionKind.items)
    (hne : st.items ≠ []) :
    stepLine st (List.replicate 4 ' ' ++ l) =
      { st with items := appendToLastItem st.items l } := by
  unfold contLineOK at hOK
  simp only [Bool.and_eq_true] at hOK
  obtain ⟨⟨⟨⟨hl, hm1⟩, hm2⟩, hm3⟩, hm4⟩ := hOK
  obtain ⟨h1, h2, h3, h4, h5⟩ := lineOK_spec l hl
  have htr : trimL (List.replicate 4 ' ' ++ l) = l := by
    refine trimL_ws_prefix _ _ ?_ h4 h5
    intro c hc
    rw [List.eq_of_mem_replicate hc]
    rfl
  unfold stepLine
  dsimp only
  rw [htr]
  rw [if_neg h1]
  rw [Option.isNone_iff_eq_none] at hm1 hm4
  rw [hm1]
  dsimp only
  rw [Bool.not_eq_true'] at hm2 hm3
  rw [hm2]
  rw [if_neg (by simp)]
  rw [hm3]
  rw [if_neg (by simp)]
  rw [hm4]
  dsimp only
  unfold contStep
  rw [if_pos]
  · dsimp only
    rw [h3]
    rw [if_pos h1]
  · refine ⟨hsec, hne, ?_⟩
    rfl

theorem splitLinesJS_ne_nil : ∀ s : Str, splitLinesJS s ≠ [] := by
  intro s
  induction s using splitLinesJS.induct with
  | case1 => simp [splitLinesJS]
  | case2 rest ih => rw [splitLinesJS]; simp
  | case3 rest ih => rw [splitLinesJS]; simp
  | case4 c rest h1 h2 hsp ih =>
    rw [splitLinesJS.eq_4 c rest h1 h2, hsp]
    simp
  | case5 c rest h1 h2 l ls hsp ih =>
    rw [splitLinesJS.eq_4 c rest h1 h2, hsp]
    simp

theorem joinLines_cons_cons (a l : Str) (ls : List Str) :
    joinLines ((a ++ l) :: ls) = a ++ joinLines (l :: ls) := by
  rcases ls with _ | ⟨b, ls'⟩
  · rw [joinLines_singleton, joinLines_singleton]
  · rw [joinLines_cons (a ++ l) (b :: ls') (by simp),
      joinLines_cons l (b :: ls') (by simp), List.append_assoc]

theorem joinLines_splitLinesJS (s : Str) (h : '\r' ∉ s) :
    joinLines (splitLinesJS s) = s := by
  induction s using splitLinesJS.induct with
  | case1 => rfl
  | case2 rest ih => exact absurd (by simp) h
  | case3 rest ih =>
    rw [splitLinesJS]
    have hr : '\r' ∉ rest := fun hc => h (by simp [hc])
    rcases hsp : splitLinesJS rest with _ | ⟨l, ls⟩
    · exact absurd hsp (splitLinesJS_ne_nil rest)
    · rw [joinLines_cons _ _ (by simp), List.nil_append, ← hsp, ih hr]
  | case4 c rest h1 h2 hsp ih =>
    exact absurd hsp (splitLinesJS_ne_nil rest)
  | case5 c rest h1 h2 l ls hsp ih =>
    have hr : '\r' ∉ rest := fun hc => h (by simp [hc])
    rw [splitLinesJS.eq_4 c rest h1 h2, hsp]
    show joinLines ((c :: l) :: ls) = c :: rest
    rw [show (c :: l) = [c] ++ l from rfl, joinLines_cons_cons, ← hsp,
      ih hr]
    rfl

theorem map_trimL_filter_id (ls : List Str)
    (h : ∀ l ∈ ls, l ≠ [] ∧ trimL l = l) :
    ((ls.map trimL).filter (· ≠ [])) = ls := by
  induction ls with
  | nil => rfl
  | cons a t ih =>
    rw [List.map_cons, (h a (by simp)).2,
      List.filter_cons_of_pos (by simp [(h a (by simp)).1]),
      ih (fun l hl => h l (by simp [hl]))]

theorem textOK_spec (t : Str) (ht : textOK t = true) :
    ∃ l0 rest, splitLinesJS t = l0 :: rest ∧ lineOK l0 = true ∧
      (∀ l ∈ rest, contLineOK l = true) ∧ t.contains '\r' = false ∧
      trimL t = t ∧ t ≠ [] := by
  unfold textOK at ht
  simp only [Bool.and_eq_true] at ht
  obtain ⟨⟨⟨hr, hh⟩, hl⟩, hm⟩ := ht
  rcases hsp : splitLinesJS t with _ | ⟨l0, rest⟩
  · rw [hsp] at hm
    exact absurd hm (by simp)
  · rw [hsp] at hm
    rw [Bool.and_eq_true] at hm
    refine ⟨l0, rest, rfl, hm.1, ?_, by simpa using hr, ?_, ?_⟩
    · intro l hl2
      exact List.all_eq_true.mp hm.2 l hl2
    · exact trimL_eq_self t (headNonWS_spec t hh) (lastNonWS_spec t hl)
    · intro hte
      rw [hte] at hh
      exact absurd hh (by decide)

theorem contLineOK_lineOK (l : Str) (h : contLineOK l = true) :
    lineOK l = true := by
  unfold contLineOK at h
  simp only [Bool.and_eq_true] at h
  exact h.1.1.1.1

theorem formatItemLines_ok (stn t : Str) (l0 : Str) (rest : List Str)
    (hsp : splitLinesJS t = l0 :: rest) (hl0 : lineOK l0 = true)
    (hrest : ∀ l ∈ rest, contLineOK l = true)
    (htr : trimL t = t) (hne : t ≠ []) :
    formatItemLines stn t ItemStyle.bracket =
      ('[' :: (stn ++ ']' :: ' ' :: l0)) :: rest := by
  unfold formatItemLines
  rw [htr]
  dsimp only
  rw [if_neg hne, hsp]
  have hfl : ∀ l ∈ l0 :: rest, l ≠ [] ∧ trimL l = l := by
    intro l hl
    rcases List.mem_cons.mp hl with h | h
    · subst h
      obtain ⟨a, _, b, _⟩ := lineOK_spec l hl0
      exact ⟨a, b⟩
    · obtain ⟨a, _, b, _⟩ := lineOK_spec l (contLineOK_lineOK l (hrest l h))
      exact ⟨a, b⟩
  rw [map_trimL_filter_id _ hfl]

theorem formatListEntryLines_pfx (f0 : Str) (rest : List Str)
    (hf : ∀ l ∈ f0 :: rest, l ≠ [] ∧ trimL l = l) :
    formatListEntryLines (MergeEntry.ls (f0 :: rest)) (str "  - ") =
      (str "  - " ++ f0) :: rest.map (fun l => List.replicate 4 ' ' ++ l) := by
  unfold formatListEntryLines
  dsimp only
  rw [map_trimL_filter_id _ hf]
  rfl

theorem appendToLastItem_concat (cont : Str) :
    ∀ (I : List KanbanItem) (it : KanbanItem),
      appendToLastItem (I ++ [it]) cont =
        I ++ [{ it with text := it.text ++ '\n' :: cont }] := by
  intro I
  induction I with
  | nil => intro it; rfl
  | cons a t ih =>
    intro it
    rcases ht : t ++ [it] with _ | ⟨b, u⟩
    · simp at ht
    · show appendToLastItem (a :: (t ++ [it])) cont = _
      rw [ht]
      show a :: appendToLastItem (b :: u) cont = _
      rw [← ht, ih it]
      rfl

/-- The text appended by a run of continuation lines. -/
def contJoin (rest : List Str) : Str := rest.flatMap (fun l => '\n' :: l)

theorem joinLines_eq_contJoin (l0 : Str) :
    ∀ rest : List Str, joinLines (l0 :: rest) = l0 ++ contJoin rest := by
  intro rest
  induction rest generalizing l0 with
  | nil => rw [joinLines_singleton]; simp [contJoin]
  | cons b t ih =>
    rw [joinLines_cons _ _ (by simp), ih b]
    simp [contJoin]

theorem foldl_stepLine_cont :
    ∀ (rest : List Str), (∀ l ∈ rest, contLineOK l = true) →
      ∀ (st : ParseState) (I : List KanbanItem) (it : KanbanItem),
        st.sec = some SectionKind.items →
        List.foldl stepLine { st with items := I ++ [it] }
          (rest.map (fun l => List.replicate 4 ' ' ++ l)) =
        { st with items := I ++ [{ it with text := it.text ++ contJoin rest }] } := by
  intro rest
  induction rest with
  | nil =>
    intro _ st I it _
    simp [contJoin]
  | cons l t ih =>
    intro hOK st I it hsec
    rw [List.map_cons, List.foldl_cons]
    rw [stepLine_contLine { st with items := I ++ [it] } l (hOK l (by simp))
      hsec (by simp)]
    dsimp only
    rw [appendToLastItem_concat]
    rw [ih (fun x hx => hOK x (by simp [hx])) st I
      { it with text := it.text ++ '\n' :: l } hsec]
    have htx : (it.text ++ '\n' :: l) ++ contJoin t =
        it.text ++ contJoin (l :: t) := by simp [contJoin]
    dsimp only
    rw [htx]

theorem not_mem_of_contains_false {a : Char} {l : Str}
    (h : l.contains a = false) : a ∉ l := by
  intro hm
  rw [List.contains_eq_any_beq] at h
  have hany : l.any (a == ·) = true := List.any_eq_true.mpr ⟨a, hm, by simp⟩
  rw [hany] at h
  exact absurd h (by simp)

theorem foldl_stepLine_item (st : ParseState) (stn t : Str)
    (hs : lineOK stn = true) (hnb : stn.contains ']' = false)
    (ht : textOK t = true) (hsec : st.sec = some SectionKind.items) :
    List.foldl stepLine st
      (formatListEntryLines
        (MergeEntry.ls (formatItemLines stn t ItemStyle.bracket))
        (str "  - ")) =
    { st with items := st.items ++ [{ status := stn, text := t }] } := by
  obtain ⟨l0, rest, hsp, hl0, hrest, hr, htr, hne⟩ := textOK_spec t ht
  rw [formatItemLines_ok stn t l0 rest hsp hl0 hrest htr hne]
  have hfl : ∀ l ∈ ('[' :: (stn ++ ']' :: ' ' :: l0)) :: rest,
      l ≠ [] ∧ trimL l = l := by
    intro l hl
    rcases List.mem_cons.mp hl with h | h
    · subst h
      obtain ⟨hs1, _, _, _, hs5⟩ := lineOK_spec stn hs
      obtain ⟨hl1, _, _, _, hl5⟩ := lineOK_spec l0 hl0
      refine ⟨by simp, trimL_eq_self _ (fun c hc => ?_) (fun c hc => ?_)⟩
      · rw [List.head?_cons, Option.some.injEq] at hc
        subst hc; rfl
      · rw [show ('[' :: (stn ++ ']' :: ' ' :: l0)) =
            ('[' :: stn ++ [']', ' ']) ++ l0 by simp,
          getLast?_append_right _ l0 hl1] at hc
        exact hl5 c hc
    · obtain ⟨a, _, b, _⟩ := lineOK_spec l (contLineOK_lineOK l (hrest l h))
      exact ⟨a, b⟩
  rw [formatListEntryLines_pfx _ rest hfl]
  rw [List.foldl_cons]
  rw [stepLine_itemFirst st stn l0 hs hnb hl0 hsec]
  rw [foldl_stepLine_cont rest hrest { st with items := st.items ++
      [{ status := stn, text := l0 }] } st.items { status := stn, text := l0 }
    hsec]
  have hrm : '\r' ∉ t := not_mem_of_contains_false hr
  have : l0 ++ contJoin rest = t := by
    rw [← joinLines_eq_contJoin l0 rest, ← hsp, joinLines_splitLinesJS t hrm]
  dsimp only
  rw [this]

theorem colOK_spec (c : KanbanColumn) (h : colOK c = true) :
    lineOK c.rawName = true ∧
    (parseColumnDefinition c.rawName).baseName = c.name ∧
    (parseColumnDefinition c.rawName).wipLimit = c.wipLimit ∧
    (parseColumnDefinition c.rawName).color = c.color ∧
    lineOK c.statusName = true ∧ c.statusName.contains ']' = false ∧
    (c.items ≠ [] → normalizeColumnKey c.statusName = keyOf c) ∧
    ∀ t ∈ c.items, textOK t = true := by
  unfold colOK at h
  simp only [Bool.and_eq_true] at h
  obtain ⟨⟨⟨⟨⟨⟨⟨h1, h2⟩, h3⟩, h4⟩, h5⟩, h6⟩, h7⟩, h8⟩ := h
  refine ⟨h1, by simpa using h2, of_decide_eq_true h3, of_decide_eq_true h4,
    h5, by simpa using h6, ?_, fun t ht => List.all_eq_true.mp h8 t ht⟩
  intro hne
  rcases Bool.or_eq_true _ _ |>.mp h7 with he | hk
  · exact absurd (List.isEmpty_iff.mp he) hne
  · simpa using hk

theorem foldl_items_block (stn : Str) (hs : lineOK stn = true)
    (hnb : stn.contains ']' = false) :
    ∀ (ts : List Str), (∀ t ∈ ts, textOK t = true) →
      ∀ st : ParseState, st.sec = some SectionKind.items →
        List.foldl stepLine st (ts.flatMap (fun t =>
          if formatItemLines stn t ItemStyle.bracket = [] then []
          else formatListEntryLines
            (MergeEntry.ls (formatItemLines stn t ItemStyle.bracket))
            (str "  - "))) =
        { st with items := st.items ++
            ts.map (fun t => { status := stn, text := t }) } := by
  intro ts
  induction ts with
  | nil => intro _ st _; simp
  | cons t ts' ih =>
    intro hts st hsec
    rw [List.flatMap_cons, List.foldl_append]
    obtain ⟨l0, rest, hsp, hl0, hrest, hr, htr, hne⟩ :=
      textOK_spec t (hts t (by simp))
    rw [if_neg (by
      rw [formatItemLines_ok stn t l0 rest hsp hl0 hrest htr hne]
      simp)]
    rw [foldl_stepLine_item st stn t hs hnb (hts t (by simp)) hsec]
    rw [ih (fun x hx => hts x (by simp [hx]))
      { st with items := st.items ++ [{ status := stn, text := t }] } hsec]
    dsimp only
    rw [List.append_assoc]
    rfl

theorem foldl_items_all (cols : List KanbanColumn) :
    (∀ c ∈ cols, colOK c = true) →
      ∀ st : ParseState, st.sec = some SectionKind.items →
        List.foldl stepLine st (cols.flatMap (fun c =>
          c.items.flatMap (fun t =>
            if formatItemLines c.statusName t ItemStyle.bracket = [] then []
            else formatListEntryLines
              (MergeEntry.ls (formatItemLines c.statusName t ItemStyle.bracket))
              (str "  - ")))) =
        { st with items := st.items ++ cols.flatMap (fun c =>
            c.items.map (fun t => { status := c.statusName, text := t })) } := by
  induction cols with
  | nil => intro _ st _; simp
  | cons c cols' ih =>
    intro hOK st hsec
    rw [List.flatMap_cons, List.foldl_append]
    obtain ⟨_, _, _, _, h5, h6, _, h8⟩ := colOK_spec c (hOK c (by simp))
    rw [foldl_items_block c.statusName h5 h6 c.items h8 st hsec]
    rw [ih (fun x hx => hOK x (by simp [hx]))
      { st with items := st.items ++
          c.items.map (fun t => { status := c.statusName, text := t }) } hsec]
    dsimp only
    rw [List.flatMap_cons, List.append_assoc]

theorem foldl_colLines (cols : List KanbanColumn) :
    (∀ c ∈ cols, colOK c = true) →
      ∀ st : ParseState, st.sec = some SectionKind.columns →
        List.foldl stepLine st
          (cols.map (fun c => str "  - " ++ c.rawName)) =
        { st with defs := st.defs ++
            cols.map (fun c => parseColumnDefinition c.rawName) } := by
  induction cols with
  | nil => intro _ st _; simp
  | cons c cols' ih =>
    intro hOK st hsec
    rw [List.map_cons, List.foldl_cons]
    obtain ⟨h1, _⟩ := colOK_spec c (hOK c (by simp))
    rw [stepLine_colLine st c.rawName h1 hsec]
    rw [ih (fun x hx => hOK x (by simp [hx]))
      { st with defs := st.defs ++ [parseColumnDefinition c.rawName] } hsec]
    dsimp only
    rw [List.map_cons, List.append_assoc]
    rfl

theorem stepLine_columnsHeader (st : ParseState) :
    stepLine st (str "columns:") = { st with sec := some SectionKind.columns } :=
  rfl

theorem stepLine_itemsHeader (st : ParseState) :
    stepLine st (str "items:") = { st with sec := some SectionKind.items } :=
  rfl

theorem clean_of_all_dot (l : Str) (h : l.all isDotChar = true) :
    '\n' ∉ l ∧ l.getLast? ≠ some '\r' := by
  constructor
  · intro hm
    have := List.all_eq_true.mp h '\n' hm
    exact absurd this (by decide)
  · intro hg
    have hm : '\r' ∈ l := List.mem_of_getLast?_eq_some hg
    have := List.all_eq_true.mp h '\r' hm
    exact absurd this (by decide)

theorem itemBlock_all_dot (stn t : Str) (hs : lineOK stn = true)
    (ht : textOK t = true) :
    ∀ x ∈ (if formatItemLines stn t ItemStyle.bracket = [] then []
        else formatListEntryLines
          (MergeEntry.ls (formatItemLines stn t ItemStyle.bracket))
          (str "  - ")),
      x.all isDotChar = true := by
  intro x hx
  obtain ⟨l0, rest, hsp, hl0, hrest, hr, htr, hne⟩ := textOK_spec t ht
  rw [formatItemLines_ok stn t l0 rest hsp hl0 hrest htr hne] at hx
  rw [if_neg (by simp)] at hx
  have hfl : ∀ l ∈ ('[' :: (stn ++ ']' :: ' ' :: l0)) :: rest,
      l ≠ [] ∧ trimL l = l := by
    intro l hl
    rcases List.mem_cons.mp hl with h | h
    · subst h
      obtain ⟨hs1, _, _, _, hs5⟩ := lineOK_spec stn hs
      obtain ⟨hl1, _, _, _, hl5⟩ := lineOK_spec l0 hl0
      refine ⟨by simp, trimL_eq_self _ (fun c hc => ?_) (fun c hc => ?_)⟩
      · rw [List.head?_cons, Option.some.injEq] at hc
        subst hc; rfl
      · rw [show ('[' :: (stn ++ ']' :: ' ' :: l0)) =
            ('[' :: stn ++ [']', ' ']) ++ l0 by simp,
          getLast?_append_right _ l0 hl1] at hc
        exact hl5 c hc
    · obtain ⟨a, _, b, _⟩ := lineOK_spec l (contLineOK_lineOK l (hrest l h))
      exact ⟨a, b⟩
  rw [formatListEntryLines_pfx _ rest hfl] at hx
  obtain ⟨_, hs2, _, _, _⟩ := lineOK_spec stn hs
  obtain ⟨_, hl2, _, _, _⟩ := lineOK_spec l0 hl0
  rcases List.mem_cons.mp hx with h | h
  · subst h
    rw [List.all_append, List.all_cons, List.all_append, List.all_cons,
      List.all_cons, hs2, hl2]
    decide
  · obtain ⟨l, hl, rfl⟩ := List.mem_map.mp h
    have := contLineOK_lineOK l (hrest l hl)
    obtain ⟨_, hld, _, _, _⟩ := lineOK_spec l this
    have hrep : (List.replicate 4 ' ').all isDotChar = true := by decide
    rw [List.all_append, hld, hrep]
    rfl

theorem scan_serialized (b : KanbanBoard)
    (hOK : ∀ c ∈ b.columns, colOK c = true) :
    List.foldl stepLine { sec := none, defs := [], items := [] }
      (splitLinesJS (serializeKanbanBoard b)) =
    { sec := some SectionKind.items,
      defs := b.columns.map (fun c => parseColumnDefinition c.rawName),
      items := b.columns.flatMap (fun c =>
        c.items.map (fun t => { status := c.statusName, text := t })) } := by
  unfold serializeKanbanBoard
  dsimp only
  rw [splitLinesJS_joinLines _ (by simp) ?clean]
  case clean =>
    intro x hx
    refine clean_of_all_dot x ?_
    rcases List.mem_cons.mp hx with h | h
    · subst h; decide
    rcases List.mem_append.mp h with h | h
    · obtain ⟨c, hc, rfl⟩ := List.mem_map.mp h
      obtain ⟨h1, _⟩ := colOK_spec c (hOK c hc)
      obtain ⟨_, h2, _, _, _⟩ := lineOK_spec _ h1
      rw [List.all_append, h2]
      decide
    rcases List.mem_cons.mp h with h | h
    · subst h; decide
    · obtain ⟨c, hc, hx2⟩ := List.mem_flatMap.mp h
      obtain ⟨t, htm, hx3⟩ := List.mem_flatMap.mp hx2
      obtain ⟨_, _, _, _, h5, _, _, h8⟩ := colOK_spec c (hOK c hc)
      exact itemBlock_all_dot c.statusName t h5 (h8 t htm) x hx3
  rw [List.foldl_append]
  have hcols : List.foldl stepLine { sec := none, defs := [], items := [] }
      (str "columns:" :: List.map (fun c => str "  - " ++ c.rawName) b.columns) =
      { sec := some SectionKind.columns,
        defs := b.columns.map (fun c => parseColumnDefinition c.rawName),
        items := [] } := by
    rw [List.foldl_cons, stepLine_columnsHeader]
    rw [foldl_colLines b.columns hOK
      { sec := some SectionKind.columns, defs := [], items := [] } rfl]
    simp
  rw [hcols]
  rw [List.foldl_cons, stepLine_itemsHeader]
  dsimp only
  rw [foldl_items_all b.columns hOK
    { sec := some SectionKind.items,
      defs := b.columns.map (fun c => parseColumnDefinition c.rawName),
      items := [] } rfl]
  simp

theorem assocFind_absent (r : RState) (key : Str)
    (h : ∀ p ∈ r, p.1 ≠ key) : assocFind r key = none := by
  unfold assocFind
  rw [List.find?_eq_none.mpr]
  · rfl
  · intro p hp
    have := h p hp
    simpa using this

theorem assocFind_middle (done rest : RState) (key : Str) (col : KanbanColumn)
    (hdone : ∀ p ∈ done, p.1 ≠ key) :
    assocFind (done ++ (key, col) :: rest) key = some col := by
  unfold assocFind
  rw [List.find?_append]
  rw [List.find?_eq_none.mpr (fun p hp => by simpa using hdone p hp)]
  rw [Option.none_or]
  rw [List.find?_cons_of_pos _ (by simp)]
  rfl

theorem assocUpdate_middle (done rest : RState) (key : Str)
    (col : KanbanColumn) (f : KanbanColumn → KanbanColumn)
    (hdone : ∀ p ∈ done, p.1 ≠ key) (hrest : ∀ p ∈ rest, p.1 ≠ key) :
    assocUpdate (done ++ (key, col) :: rest) key f =
      done ++ (key, f col) :: rest := by
  unfold assocUpdate
  rw [List.map_append, List.map_cons]
  rw [if_pos (by simp)]
  congr 1
  · rw [List.map_congr_left (fun p hp => by
      rw [if_neg (by simpa using hdone p hp)])]
    exact List.map_id' done
  · congr 1
    rw [List.map_congr_left (fun p hp => by
      rw [if_neg (by simpa using hrest p hp)])]
    exact List.map_id' rest

/-- The column created by the re-parse from a serialized declaration, before items are distributed. -/
def baseCol (c : KanbanColumn) : KanbanColumn :=
  createColumnFromDefinition (parseColumnDefinition c.rawName)

theorem foldl_ensureColumn_fresh :
    ∀ (cols : List KanbanColumn), (∀ c ∈ cols, colOK c = true) →
      (cols.map keyOf).Nodup →
      ∀ r : RState, (∀ p ∈ r, ∀ c ∈ cols, p.1 ≠ keyOf c) →
        (cols.map (fun c => parseColumnDefinition c.rawName)).foldl
          ensureColumn r =
        r ++ cols.map (fun c => (keyOf c, baseCol c)) := by
  intro cols
  induction cols with
  | nil => intro _ _ r _; simp
  | cons c cols' ih =>
    intro hOK hnd r hr
    rw [List.map_cons, List.foldl_cons]
    obtain ⟨h1, _⟩ := colOK_spec c (hOK c (by simp))
    obtain ⟨_, _, htr, _, _⟩ := lineOK_spec _ h1
    have hkey : normalizeColumnKey (parseColumnDefinition c.rawName).rawName =
        keyOf c := by
      rw [parseColumnDefinition_rawName_eq, htr]
      rfl
    have hensure : ensureColumn r (parseColumnDefinition c.rawName) =
        r ++ [(keyOf c, baseCol c)] := by
      unfold ensureColumn
      dsimp only
      rw [hkey]
      rw [assocFind_absent r (keyOf c) (fun p hp => hr p hp c (by simp))]
      rfl
    rw [hensure]
    rw [List.map_cons] at hnd
    rw [ih (fun x hx => hOK x (by simp [hx])) (List.Nodup.of_cons hnd)
      (r ++ [(keyOf c, baseCol c)]) ?fresh]
    · rw [List.map_cons, List.append_assoc, List.singleton_append]
    case fresh =>
      intro p hp c' hc'
      rcases List.mem_append.mp hp with h | h
      · exact hr p h c' (by simp [hc'])
      · rw [List.mem_singleton.mp h]
        dsimp only
        intro hcc
        have : keyOf c' ∈ cols'.map keyOf := List.mem_map.mpr ⟨c', hc', rfl⟩
        rw [← hcc] at this
        exact (List.nodup_cons.mp hnd).1 this

theorem pair_eta_fst {α β : Type} (p : α × β) (x : α) (h : p.1 = x) :
    p = (x, p.2) := by
  rw [← h]

theorem fold_itemStep_texts :
    ∀ (ts : List Str) (stn : Str), stn ≠ [] →
      ∀ (key : Str), (ts ≠ [] → normalizeColumnKey stn = key) →
        ∀ (done rest : RState) (col : KanbanColumn) (u : UsageMap),
          (∀ p ∈ done, p.1 ≠ key) → (∀ p ∈ rest, p.1 ≠ key) →
          (List.foldl itemStep (done ++ (key, col) :: rest, u)
            (ts.map (fun t => { status := stn, text := t }))).1 =
          done ++ (key, { col with items := col.items ++ ts }) :: rest := by
  intro ts
  induction ts with
  | nil =>
    intro stn _ key _ done rest col u _ _
    simp
  | cons t ts' ih =>
    intro stn hsn key hkey done rest col u hdone hrest
    rw [List.map_cons, List.foldl_cons]
    have hstep : itemStep (done ++ (key, col) :: rest, u)
        { status := stn, text := t } =
        ((done ++ (key, { col with items := col.items ++ [t] }) :: rest),
          (itemStep (done ++ (key, col) :: rest, u)
            { status := stn, text := t }).2) := by
      refine pair_eta_fst _ _ ?_
      unfold itemStep
      dsimp only
      rw [show strOr stn DEFAULT_COLUMN = stn from if_neg hsn]
      rw [hkey (by simp)]
      rw [assocFind_middle done rest key col hdone]
      dsimp only
      rw [assocUpdate_middle done rest key col _ hdone hrest]
    rw [hstep]
    rw [ih stn hsn key (fun _ => hkey (by simp)) done rest
      { col with items := col.items ++ [t] } _ hdone hrest]
    dsimp only
    rw [List.append_assoc, List.singleton_append]

theorem fold_itemStep_cols :
    ∀ (cols : List KanbanColumn), (∀ c ∈ cols, colOK c = true) →
      (cols.map keyOf).Nodup →
      ∀ (done : RState) (u : UsageMap),
        (∀ p ∈ done, ∀ c ∈ cols, p.1 ≠ keyOf c) →
        (List.foldl itemStep
          (done ++ cols.map (fun c => (keyOf c, baseCol c)), u)
          (cols.flatMap (fun c =>
            c.items.map (fun t => { status := c.statusName, text := t })))).1 =
        done ++ cols.map (fun c =>
          (keyOf c, { baseCol c with items := c.items })) := by
  intro cols
  induction cols with
  | nil => intro _ _ done u _; simp
  | cons c cols' ih =>
    intro hOK hnd done u hd
    rw [List.flatMap_cons, List.foldl_append]
    rw [List.map_cons] at hnd
    obtain ⟨_, _, _, _, h5, _, h7, _⟩ := colOK_spec c (hOK c (by simp))
    obtain ⟨hs1, _, _, _, _⟩ := lineOK_spec _ h5
    have hdone' : ∀ p ∈ done, p.1 ≠ keyOf c := fun p hp => hd p hp c (by simp)
    have hrest' : ∀ p ∈ cols'.map (fun c => (keyOf c, baseCol c)),
        p.1 ≠ keyOf c := by
      intro p hp
      obtain ⟨c', hc', rfl⟩ := List.mem_map.mp hp
      dsimp only
      intro hcc
      have hmm : keyOf c ∈ cols'.map keyOf := by
        rw [← hcc]
        exact List.mem_map.mpr ⟨c', hc', rfl⟩
      exact (List.nodup_cons.mp hnd).1 hmm
    rw [show done ++ (c :: cols').map (fun c => (keyOf c, baseCol c)) =
      done ++ (keyOf c, baseCol c) ::
        cols'.map (fun c => (keyOf c, baseCol c)) from rfl]
    have h1 := fold_itemStep_texts c.items c.statusName hs1 (keyOf c) h7
      done (cols'.map (fun c => (keyOf c, baseCol c))) (baseCol c) u
      hdone' hrest'
    rw [pair_eta_fst _ _ h1]
    rw [show done ++ (keyOf c,
        { baseCol c with items := (baseCol c).items ++ c.items }) ::
          cols'.map (fun c => (keyOf c, baseCol c)) =
      (done ++ [(keyOf c,
        { baseCol c with items := (baseCol c).items ++ c.items })]) ++
        cols'.map (fun c => (keyOf c, baseCol c)) by
        rw [List.append_assoc, List.singleton_append]]
    rw [ih (fun x hx => hOK x (by simp [hx])) (List.Nodup.of_cons hnd)
      _ _ ?hfr]
    · rw [List.map_cons, List.append_assoc, List.singleton_append]
      have hbase : (baseCol c).items ++ c.items = c.items := rfl
      rw [hbase]
    case hfr =>
      intro p hp c' hc'
      rcases List.mem_append.mp hp with h | h
      · exact hd p h c' (by simp [hc'])
      · rw [List.mem_singleton.mp h]
        dsimp only
        intro hcc
        have hmm : keyOf c' ∈ cols'.map keyOf := List.mem_map.mpr ⟨c', hc', rfl⟩
        rw [← hcc] at hmm
        exact (List.nodup_cons.mp hnd).1 hmm

theorem assignStatusName_view (u : UsageMap) (p : Str × KanbanColumn) :
    boardView (assignStatusName u p) = boardView p.2 := by
  unfold assignStatusName boardView
  dsimp only
  repeat' split
  all_goals rfl

theorem roundtrip_view (b : KanbanBoard) (hOK : boardOK b = true) :
    (parseKanbanSource (serializeKanbanBoard b)).columns.map boardView =
      b.columns.map boardView := by
  unfold boardOK at hOK
  simp only [Bool.and_eq_true] at hOK
  obtain ⟨⟨hne, hall⟩, hnd⟩ := hOK
  have hOKc : ∀ c ∈ b.columns, colOK c = true := List.all_eq_true.mp hall
  have hnd' : (b.columns.map keyOf).Nodup := of_decide_eq_true hnd
  have hcols_ne : b.columns ≠ [] := by simpa using hne
  unfold parseKanbanSource
  dsimp only
  rw [scan_serialized b hOKc]
  unfold resolveBoard
  dsimp only
  rw [foldl_ensureColumn_fresh b.columns hOKc hnd' [] (by simp),
    List.nil_append]
  have hmapne : b.columns.map (fun c => (keyOf c, baseCol c)) ≠ [] := by
    simpa using hcols_ne
  rw [if_neg hmapne, if_neg hmapne]
  have h2 := fold_itemStep_cols b.columns hOKc hnd' [] [] (by simp)
  rw [List.nil_append, List.nil_append] at h2
  rw [pair_eta_fst _ _ h2]
  dsimp only
  rw [List.map_map, List.map_map]
  refine List.map_congr_left (fun c hc => ?_)
  show boardView (assignStatusName _ (keyOf c, { baseCol c with items := c.items })) =
    boardView c
  rw [assignStatusName_view]
  obtain ⟨h1, hb2, hb3, hb4, _⟩ := colOK_spec c (hOKc c hc)
  obtain ⟨hr1, _, htr, _, _⟩ := lineOK_spec _ h1
  have hbn : (parseColumnDefinition c.rawName).baseName ≠ [] :=
    parseColumnDefinition_baseName_ne_nil c.rawName (by rw [htr]; exact hr1)
  have hname : (baseCol c).name = c.name := by
    unfold baseCol createColumnFromDefinition
    dsimp only
    unfold strOr
    rw [if_neg hbn]
    exact hb2
  have hwip : (baseCol c).wipLimit = c.wipLimit := hb3
  have hcolor : (baseCol c).color = c.color := hb4
  unfold boardView
  dsimp only
  rw [hname, hwip, hcolor]

/-- C1 (amended): for every input whose parsed board lies in the `boardOK`
class — column rawNames are clean trimmed lines whose re-parse reproduces
name, wipLimit and color (ruling out duplicate-declaration fill-ins),
statusNames are clean, bracket-free and key-consistent, item texts are made of
clean trimmed lines that stay continuations, and column keys are distinct —
parsing the serialization agrees with the original parse on every column's
normalized base name, wipLimit, color and ordered item texts. -/
theorem parse_serialize_parse_amended (s : Str)
    (hOK : boardOK (parseKanbanSource s) = true) :
    (roundTrip s).columns.map boardView =
      (parseKanbanSource s).columns.map boardView :=
  roundtrip_view (parseKanbanSource s) hOK

/-- Witness for the amended C1 theorem on a concrete board. -/
theorem parse_serialize_parse_amended_witness :
    boardOK (parseKanbanSource
      (str "columns:\n- Todo\nitems:\n- [Todo] hello")) = true ∧
    (roundTrip (str "columns:\n- Todo\nitems:\n- [Todo] hello")).columns.map
        boardView =
      (parseKanbanSource
        (str "columns:\n- Todo\nitems:\n- [Todo] hello")).columns.map
        boardView :=
  ⟨by decide, parse_serialize_parse_amended
    (str "columns:\n- Todo\nitems:\n- [Todo] hello") (by decide)⟩
